import Mathlib

set_option maxRecDepth 8000
set_option maxHeartbeats 1000000

/-!
Verification of the checkpointed batching stream processor
(`ScriptoriumLambda` with `Batch`, `OffsetBatch`, `BatchManager`,
`WorkManager`).

The TypeScript source is embedded shallowly: the mutable objects become
structures, and the asynchronous send loop becomes a step function over an
event alphabet (message add, send completion, send failure, close).  The only
suspension points in the source are the sender promises, so a send completion
or rejection is one atomic event; everything between two suspension points
(the body of `add`, the `.then` continuation of `sendPending`, the
synchronous event emissions) executes inside a single step, exactly as in the
single-threaded Node.js execution model of the source.

Ghost history fields (offsets ever added, offsets in the pending/current
batches, offsets whose batch completed, snapshots of the batches handed to
the sender, emitted checkpoints and errors) record the observable history;
they do not influence the operational fields.
-/

namespace Scriptorium

/-- Modelled from the spec: the `Range` utility (`coreUtils.Range` from
`@prague/client-api`) is not part of the repository sources.  Per the spec it
is an interval `[tail, head]` over offsets extended with a `−∞` sentinel
(modelled as `⊥` of `WithBot ℤ`), and it is empty exactly when the head is
the sentinel. -/
structure Range where
  head : WithBot ℤ
  tail : WithBot ℤ
deriving DecidableEq

/-- Modelled from the spec: a range is empty when its head is the `−∞`
sentinel. -/
def Range.empty (r : Range) : Bool :=
  decide (r.head = (⊥ : WithBot ℤ))

/-- JavaScript `Math.max` on the offset domain with `−∞`. -/
def wmax (a b : WithBot ℤ) : WithBot ℤ :=
  if a ≤ b then b else a

/-- JavaScript `Math.min` on the offset domain with `−∞`. -/
def wmin (a b : WithBot ℤ) : WithBot ℤ :=
  if a ≤ b then a else b

/-- Modelled from the spec: `Range.union` — an empty operand contributes
nothing; otherwise take the min of the tails and the max of the heads. -/
def Range.union (a b : Range) : Range :=
  if a.empty then b
  else if b.empty then a
  else ⟨wmax a.head b.head, wmin a.tail b.tail⟩

theorem wmax_eq_max (a b : WithBot ℤ) : wmax a b = max a b := by
  unfold wmax
  split
  · exact (max_eq_right (by assumption)).symm
  · exact (max_eq_left (le_of_not_le (by assumption))).symm

theorem wmin_eq_min (a b : WithBot ℤ) : wmin a b = min a b := by
  unfold wmin
  split
  · exact (min_eq_left (by assumption)).symm
  · exact (min_eq_right (le_of_not_le (by assumption))).symm

/-- `Batch<K, T>` from the source: pending work grouped by the
`JSON.stringify`-encoded key.  A JS `Map` preserves insertion order, so it is
modelled as an association list in insertion order; the caller supplies the
already-encoded key string. -/
def Batch (V : Type) : Type :=
  List (String × List V)

/-- `Batch.add`: look up (or insert an empty group for) the encoded key and
push the work item at the end of its group. -/
def Batch.add (b : Batch V) (encodedId : String) (work : V) : Batch V :=
  match b with
  | [] => [(encodedId, [work])]
  | (k, vs) :: rest =>
      if k = encodedId then (k, vs ++ [work]) :: rest
      else (k, vs) :: Batch.add rest encodedId work

/-- `Batch.clear`: drop all pending work. -/
def Batch.clear (_b : Batch V) : Batch V := []

/-- `OffsetBatch<K, T>` from the source: a batch plus the log offset that
maps to it (`undefined`, i.e. `none`, when unset). -/
structure OffsetBatch (V : Type) where
  offset : Option ℤ
  batch : Batch V

/-- `OffsetBatch.isEmpty`: the batch is empty iff its offset is unset. -/
def OffsetBatch.isEmpty (ob : OffsetBatch V) : Bool :=
  ob.offset.isNone

/-- `OffsetBatch.clear`: reset the offset and clear the inner batch. -/
def OffsetBatch.clear (ob : OffsetBatch V) : OffsetBatch V :=
  { offset := none, batch := ob.batch.clear }

/-- A freshly constructed (empty) `OffsetBatch`. -/
def OffsetBatch.initial : OffsetBatch V :=
  { offset := none, batch := [] }

/-- The state of one `BatchManager<K, T>`.

Operational fields (`range`, `pending`, `current`, `closed`) mirror the
source fields.  `outstanding` counts invocations of the sender whose promise
has neither resolved nor rejected; `failed` records that a sender rejection
(or an exception thrown by a `workComplete` listener) was caught by
`doneP.catch`.  The remaining fields are ghost history: all offsets ever
passed to `add`, the offsets of the adds accumulated in `pending` and
`current`, the offsets whose batch's send resolved successfully, and the
batches handed to the sender. -/
structure BatchManager (V : Type) where
  range : Range
  pending : OffsetBatch V
  current : OffsetBatch V
  closed : Bool
  outstanding : ℕ
  failed : Bool
  addedOffsets : List ℤ
  pendingOffsets : List ℤ
  currentOffsets : List ℤ
  doneOffsets : List ℤ
  sends : List (Batch V)

/-- `BatchManager.MinRangeValue` initial state: the range starts at the
`−∞` sentinel on both ends, both offset batches are empty. -/
def BatchManager.initial : BatchManager V where
  range := ⟨⊥, ⊥⟩
  pending := OffsetBatch.initial
  current := OffsetBatch.initial
  closed := false
  outstanding := 0
  failed := false
  addedOffsets := []
  pendingOffsets := []
  currentOffsets := []
  doneOffsets := []
  sends := []

/-- `BatchManager.sendPending`, up to and including the invocation of the
sender.  The `.then` continuation of the returned promise is a separate
event (`WorkManager.completeStep` / `WorkManager.failStep`).  Exit early if
closed or if there is no pending work; otherwise swap `current` and
`pending` and invoke the sender on the new current batch. -/
def BatchManager.sendPending (b : BatchManager V) : BatchManager V :=
  if b.closed then b
  else if b.pending.isEmpty then b
  else
    { b with
      current := b.pending
      pending := b.current
      outstanding := b.outstanding + 1
      sends := b.sends ++ [b.pending.batch]
      currentOffsets := b.pendingOffsets
      pendingOffsets := b.currentOffsets }

/-- `BatchManager.requestSend`: if the current batch is not empty a send is
in flight — return; otherwise begin a new send. -/
def BatchManager.requestSend (b : BatchManager V) : BatchManager V :=
  if !b.current.isEmpty then b else b.sendPending

/-- The mutation part of `BatchManager.add` (everything before the final
`requestSend` call): record whether the range was empty, move the head to
the new offset (and, on the empty-to-non-empty transition, the tail to
`offset − 1`), append the work to the pending batch, and update the pending
offset. -/
def BatchManager.addMutate (b : BatchManager V) (encodedId : String) (value : V)
    (offset : ℤ) : BatchManager V :=
  let wasEmpty := b.range.empty
  { b with
    range :=
      { head := ((offset : ℤ) : WithBot ℤ)
        tail := if wasEmpty then ((offset - 1 : ℤ) : WithBot ℤ) else b.range.tail }
    pending := { offset := some offset, batch := b.pending.batch.add encodedId value }
    addedOffsets := offset :: b.addedOffsets
    pendingOffsets := offset :: b.pendingOffsets }

/-- `BatchManager.add`: the mutation above followed by `requestSend`. -/
def BatchManager.add (b : BatchManager V) (encodedId : String) (value : V)
    (offset : ℤ) : BatchManager V :=
  (b.addMutate encodedId value offset).requestSend

/-- `BatchManager.close`. -/
def BatchManager.close (b : BatchManager V) : BatchManager V :=
  { b with closed := true }

/-- The state of the `WorkManager` together with its host-visible history:
`checkpoints` records the offsets emitted via `offsetChanged` (in order, and
hence the arguments of the host's `checkpoint` calls), `errors` the emitted
error events, `workCompletes` the emitted `workComplete` offsets. -/
structure WorkManager (n : ℕ) (V : Type) where
  work : Fin n → BatchManager V
  lastOffset : WithBot ℤ
  checkpoints : List (WithBot ℤ)
  errors : List String
  workCompletes : List (WithBot ℤ)

/-- The initial `WorkManager` with `n` batched workers: `lastOffset` starts
at the `−∞` sentinel. -/
def WorkManager.initial (n : ℕ) (V : Type) : WorkManager n V where
  work := fun _ => BatchManager.initial
  lastOffset := ⊥
  checkpoints := []
  errors := []
  workCompletes := []

/-- The fold computing `maxHead` in `WorkManager.updateOffset`: starting
from `lastOffset`, take the max with every worker's head. -/
def WorkManager.maxHeadFold (s : WorkManager n V) : WithBot ℤ :=
  (List.finRange n).foldl (fun acc i => wmax acc (s.work i).range.head) s.lastOffset

/-- The fold computing the range union in `WorkManager.updateOffset`:
starting from an empty range, union in every worker's range. -/
def WorkManager.unionFold (s : WorkManager n V) : Range :=
  (List.finRange n).foldl (fun acc i => Range.union acc (s.work i).range) ⟨⊥, ⊥⟩

/-- The offset derived by `WorkManager.updateOffset`: if all the ranges are
empty take the max of the heads, otherwise the smallest tail. -/
def WorkManager.derivedOffset (s : WorkManager n V) : WithBot ℤ :=
  if s.unionFold.empty then s.maxHeadFold else s.unionFold.tail

/-- `WorkManager.updateOffset`: derive the offset, assert
`offset ≥ lastOffset`, and emit `offsetChanged` when the offset moved.  The
boolean result records whether the assertion held; when it is `false` the
source's `assert.ok` throws inside the `workComplete` emission and nothing
is emitted. -/
def WorkManager.updateOffset (s : WorkManager n V) : WorkManager n V × Bool :=
  let offset := s.derivedOffset
  if s.lastOffset ≤ offset then
    if offset ≠ s.lastOffset then
      ({ s with lastOffset := offset, checkpoints := s.checkpoints ++ [offset] }, true)
    else (s, true)
  else (s, false)

/-- The `workComplete` offset emitted when the current batch of `b`
completes (`this.current.offset` at the time of the continuation). -/
def BatchManager.completedOffset (b : BatchManager V) : WithBot ℤ :=
  match b.current.offset with
  | some o => ((o : ℤ) : WithBot ℤ)
  | none => ⊥

/-- The local part of a successful send continuation: the promise resolved
(one fewer outstanding invocation), the tail of the range moves to the
current batch's offset, and the current batch's offsets become durable. -/
def BatchManager.completeLocal (b : BatchManager V) : BatchManager V :=
  { b with
    range := { head := b.range.head, tail := b.completedOffset }
    outstanding := b.outstanding - 1
    doneOffsets := b.currentOffsets ++ b.doneOffsets }

/-- `this.current.clear()` inside the send continuation. -/
def BatchManager.clearCurrent (b : BatchManager V) : BatchManager V :=
  { b with current := b.current.clear, currentOffsets := [] }

/-- The state at the moment the `workComplete` event is emitted on worker
`i`: the tail of `i`'s range has moved to the current batch's offset but the
current batch has not yet been cleared. -/
def WorkManager.preEmit (s : WorkManager n V) (i : Fin n) : WorkManager n V :=
  { s with
    work := Function.update s.work i (s.work i).completeLocal
    workCompletes := s.workCompletes ++ [(s.work i).completedOffset] }

/-- The `.then` continuation of a successful send on worker `i`: update the
tail of the range to the current batch's offset, emit `workComplete` (whose
`WorkManager` listener runs `updateOffset` synchronously), then clear the
current batch and start on pending.  If the `updateOffset` assertion throws,
the continuation aborts before the clear and the rejection is caught by
`doneP.catch`, which emits an error.  A completion event for a worker with
no outstanding send is a no-op (no such promise exists). -/
def WorkManager.completeStep (s : WorkManager n V) (i : Fin n) : WorkManager n V :=
  if (s.work i).outstanding = 0 then s
  else
    let r := (s.preEmit i).updateOffset
    if r.2 then
      { r.1 with work := Function.update r.1.work i ((r.1.work i).clearCurrent.sendPending) }
    else
      { r.1 with
        work := Function.update r.1.work i { r.1.work i with failed := true }
        errors := r.1.errors ++ ["assert"] }

/-- The rejection of an outstanding send on worker `i`: `doneP.catch` emits
the error (re-emitted by the `WorkManager`); the current batch is not
cleared, the tail is not advanced, and no further send is started.  A
failure event for a worker with no outstanding send is a no-op. -/
def WorkManager.failStep (s : WorkManager n V) (i : Fin n) (e : String) : WorkManager n V :=
  let b := s.work i
  if b.outstanding = 0 then s
  else
    { s with
      work := Function.update s.work i
        { b with outstanding := b.outstanding - 1, failed := true }
      errors := s.errors ++ [e] }

/-- The event alphabet of the asynchronous execution: a message add to one
worker, the completion or rejection of that worker's outstanding send, and
closing one worker or all of them (`WorkManager.close`). -/
inductive Ev (n : ℕ) (V : Type) where
  | add (i : Fin n) (encodedId : String) (value : V) (offset : ℤ)
  | complete (i : Fin n)
  | fail (i : Fin n) (e : String)
  | closeOne (i : Fin n)
  | closeAll

/-- One step of the system. -/
def WorkManager.step (s : WorkManager n V) : Ev n V → WorkManager n V
  | .add i k v o => { s with work := Function.update s.work i ((s.work i).add k v o) }
  | .complete i => s.completeStep i
  | .fail i e => s.failStep i e
  | .closeOne i => { s with work := Function.update s.work i (s.work i).close }
  | .closeAll => { s with work := fun j => (s.work j).close }

/-- Run a trace of events. -/
def WorkManager.run (s : WorkManager n V) (tr : List (Ev n V)) : WorkManager n V :=
  tr.foldl WorkManager.step s

/-- The log precondition for a single event: offsets passed to `add` are
monotonically non-decreasing per worker (the head is the last added
offset). -/
def okEv (s : WorkManager n V) : Ev n V → Bool
  | .add i _ _ o => decide ((s.work i).range.head ≤ ((o : ℤ) : WithBot ℤ))
  | _ => true

/-- The log precondition over a trace. -/
def goodTrace (s : WorkManager n V) : List (Ev n V) → Bool
  | [] => true
  | e :: tr => okEv s e && goodTrace (s.step e) tr

/-! ### Characterization lemmas for the single-manager operations -/

theorem OffsetBatch.isEmpty_iff (ob : OffsetBatch V) :
    ob.isEmpty = true ↔ ob.offset = none := by
  simp [OffsetBatch.isEmpty, Option.isNone_iff_eq_none]

theorem BatchManager.requestSend_eq (b : BatchManager V) :
    b.requestSend = if b.current.offset = none then b.sendPending else b := by
  unfold BatchManager.requestSend OffsetBatch.isEmpty
  cases h : b.current.offset <;> simp [h]

theorem BatchManager.sendPending_of_closed (b : BatchManager V)
    (h : b.closed = true) : b.sendPending = b := by
  unfold BatchManager.sendPending
  simp [h]

theorem BatchManager.sendPending_of_pending_none (b : BatchManager V)
    (h : b.pending.offset = none) : b.sendPending = b := by
  unfold BatchManager.sendPending OffsetBatch.isEmpty
  simp [h]

theorem BatchManager.sendPending_of_open (b : BatchManager V) (p : ℤ)
    (hc : b.closed = false) (hp : b.pending.offset = some p) :
    b.sendPending =
      { b with
        current := b.pending
        pending := b.current
        outstanding := b.outstanding + 1
        sends := b.sends ++ [b.pending.batch]
        currentOffsets := b.pendingOffsets
        pendingOffsets := b.currentOffsets } := by
  unfold BatchManager.sendPending OffsetBatch.isEmpty
  simp [hc, hp]

/-! ### The structural invariant (independent of the log precondition) -/

/-- The part of the `BatchManager` state invariant that holds in every
execution, with no assumption on the offsets passed to `add`. -/
structure AInv (b : BatchManager V) : Prop where
  out_le : b.outstanding ≤ 1
  out_cur : b.outstanding = 1 → b.current.offset.isSome
  idle_cur : b.failed = false → b.outstanding = 0 → b.current.offset = none
  fail_cur : b.failed = true → b.outstanding = 0 ∧ b.current.offset.isSome
  curoffs_iff : b.current.offset = none ↔ b.currentOffsets = []
  pendoffs_iff : b.pending.offset = none ↔ b.pendingOffsets = []
  pend_head : ∀ p : ℤ, b.pending.offset = some p → b.range.head = ((p : ℤ) : WithBot ℤ)
  pend_mem : ∀ p : ℤ, b.pending.offset = some p → p ∈ b.pendingOffsets
  cur_mem : ∀ c : ℤ, b.current.offset = some c → c ∈ b.currentOffsets
  cur_head_ne : b.current.offset.isSome → b.range.head ≠ ⊥
  added_iff : ∀ o : ℤ, o ∈ b.addedOffsets ↔
    (o ∈ b.pendingOffsets ∨ o ∈ b.currentOffsets ∨ o ∈ b.doneOffsets)
  empty_added : b.range.head = ⊥ → b.addedOffsets = []

theorem AInv.initialA : AInv (BatchManager.initial (V := V)) := by
  constructor <;> simp [BatchManager.initial, OffsetBatch.initial]

theorem AInv.addMutateA {b : BatchManager V} (h : AInv b) (k : String) (v : V)
    (o : ℤ) : AInv (b.addMutate k v o) := by
  unfold BatchManager.addMutate
  constructor
  · exact h.out_le
  · exact fun h1 => h.out_cur h1
  · exact fun hf h0 => h.idle_cur hf h0
  · exact fun hf => h.fail_cur hf
  · exact h.curoffs_iff
  · simp
  · intro p hp
    simp only [Option.some.injEq] at hp
    simp [hp]
  · intro p hp
    simp only [Option.some.injEq] at hp
    simp [hp]
  · exact fun c hc => h.cur_mem c hc
  · intro _
    exact WithBot.coe_ne_bot
  · intro x
    have hx := h.added_iff x
    simp only [List.mem_cons]
    tauto
  · intro hbot
    exact absurd hbot WithBot.coe_ne_bot

theorem AInv.outstanding_zero {b : BatchManager V} (h : AInv b)
    (hcur : b.current.offset = none) : b.outstanding = 0 := by
  rcases Nat.lt_or_ge b.outstanding 1 with h1 | h1
  · omega
  · have h2 : b.outstanding = 1 := le_antisymm h.out_le h1
    have h3 := h.out_cur h2
    rw [hcur] at h3
    simp at h3

theorem AInv.sendPendingA {b : BatchManager V} (h : AInv b)
    (hcur : b.current.offset = none) : AInv b.sendPending := by
  by_cases hcl : b.closed = true
  · rw [BatchManager.sendPending_of_closed b hcl]; exact h
  · replace hcl : b.closed = false := by simpa using hcl
    cases hp : b.pending.offset with
    | none => rw [BatchManager.sendPending_of_pending_none b hp]; exact h
    | some p =>
      rw [BatchManager.sendPending_of_open b p hcl hp]
      have hout0 : b.outstanding = 0 := h.outstanding_zero hcur
      have hcuro : b.currentOffsets = [] := h.curoffs_iff.mp hcur
      constructor

      · simp [hout0]
      · intro _
        simp [hp]
      · intro _ h0
        simp [hout0] at h0
      · intro hf
        have := (h.fail_cur hf).2
        rw [hcur] at this
        simp at this
      · constructor
        · intro hx
          simp [hp] at hx
        · intro hnil
          have := h.pendoffs_iff.mpr hnil
          rw [hp] at this
          cases this
      · constructor
        · intro _
          exact hcuro
        · intro _
          exact hcur
      · intro q hq
        simp only at hq
        rw [hcur] at hq
        cases hq
      · intro q hq
        simp only at hq
        rw [hcur] at hq
        cases hq
      · intro c hc
        simp only at hc
        rw [hp] at hc
        simp only [Option.some.injEq] at hc
        subst hc
        exact h.pend_mem p hp
      · intro _
        rw [h.pend_head p hp]
        exact WithBot.coe_ne_bot
      · intro x
        have hx := h.added_iff x
        simp only
        tauto
      · intro hbot
        rw [h.pend_head p hp] at hbot
        exact absurd hbot WithBot.coe_ne_bot

theorem AInv.addA {b : BatchManager V} (h : AInv b) (k : String) (v : V)
    (o : ℤ) : AInv (b.add k v o) := by
  unfold BatchManager.add
  rw [BatchManager.requestSend_eq]
  have hA := h.addMutateA k v o
  split
  · exact hA.sendPendingA (by assumption)
  · exact hA

theorem AInv.closeA {b : BatchManager V} (h : AInv b) : AInv b.close := by
  unfold BatchManager.close
  exact ⟨h.out_le, h.out_cur, h.idle_cur, h.fail_cur, h.curoffs_iff, h.pendoffs_iff,
    h.pend_head, h.pend_mem, h.cur_mem, h.cur_head_ne, h.added_iff, h.empty_added⟩

theorem AInv.failLocalA {b : BatchManager V} (h : AInv b) (hout : b.outstanding ≠ 0) :
    AInv { b with outstanding := b.outstanding - 1, failed := true } := by
  have hout1 : b.outstanding = 1 := le_antisymm h.out_le (by omega)
  constructor
  · show b.outstanding - 1 ≤ 1
    omega
  · intro h1
    have h2 : b.outstanding - 1 = 1 := h1
    omega
  · intro hf
    exact absurd hf (by simp)
  · intro _
    refine ⟨?_, h.out_cur hout1⟩
    show b.outstanding - 1 = 0
    omega
  · exact h.curoffs_iff
  · exact h.pendoffs_iff
  · exact h.pend_head
  · exact h.pend_mem
  · exact h.cur_mem
  · exact h.cur_head_ne
  · exact h.added_iff
  · exact h.empty_added

theorem AInv.completeClearA {b : BatchManager V} (h : AInv b)
    (hout : b.outstanding ≠ 0) : AInv b.completeLocal.clearCurrent := by
  have hout1 : b.outstanding = 1 := le_antisymm h.out_le (by omega)
  have hfail : b.failed = false := by
    cases hf : b.failed
    · rfl
    · exact absurd (h.fail_cur hf).1 hout
  unfold BatchManager.completeLocal BatchManager.clearCurrent OffsetBatch.clear
  constructor
  · show b.outstanding - 1 ≤ 1
    omega
  · intro h1
    have h2 : b.outstanding - 1 = 1 := h1
    omega
  · intro _ _
    rfl
  · intro hf
    simp only at hf
    rw [hfail] at hf
    cases hf
  · simp
  · exact h.pendoffs_iff
  · exact h.pend_head
  · exact h.pend_mem
  · intro c hc
    cases hc
  · intro hs
    simp [Option.isSome] at hs
  · intro x
    have hx := h.added_iff x
    simp only [List.mem_append, List.not_mem_nil]
    tauto
  · exact h.empty_added

theorem AInv.completeSuccessA {b : BatchManager V} (h : AInv b)
    (hout : b.outstanding ≠ 0) : AInv b.completeLocal.clearCurrent.sendPending :=
  (h.completeClearA hout).sendPendingA rfl

theorem AInv.completeAssertFailA {b : BatchManager V} (h : AInv b)
    (hout : b.outstanding ≠ 0) : AInv { b.completeLocal with failed := true } := by
  have hout1 : b.outstanding = 1 := le_antisymm h.out_le (by omega)
  unfold BatchManager.completeLocal
  constructor
  · show b.outstanding - 1 ≤ 1
    omega
  · intro h1
    have h2 : b.outstanding - 1 = 1 := h1
    omega
  · intro hf
    exact absurd hf (by simp)
  · intro _
    refine ⟨?_, h.out_cur hout1⟩
    show b.outstanding - 1 = 0
    omega
  · exact h.curoffs_iff
  · exact h.pendoffs_iff
  · exact h.pend_head
  · exact h.pend_mem
  · exact h.cur_mem
  · exact h.cur_head_ne
  · intro x
    have hx := h.added_iff x
    simp only [List.mem_append]
    tauto
  · exact h.empty_added

/-! ### Characterization lemmas for the system-level steps -/

theorem WorkManager.updateOffset_eq (s : WorkManager n V) :
    s.updateOffset =
      if s.lastOffset ≤ s.derivedOffset then
        if s.derivedOffset ≠ s.lastOffset then
          ({ s with lastOffset := s.derivedOffset,
                    checkpoints := s.checkpoints ++ [s.derivedOffset] }, true)
        else (s, true)
      else (s, false) := rfl

theorem WorkManager.updateOffset_work (s : WorkManager n V) :
    (s.updateOffset).1.work = s.work := by
  rw [WorkManager.updateOffset_eq]
  by_cases h1 : s.lastOffset ≤ s.derivedOffset
  · by_cases h2 : s.derivedOffset ≠ s.lastOffset <;> simp [h1, h2]
  · simp [h1]

theorem WorkManager.updateOffset_errors (s : WorkManager n V) :
    (s.updateOffset).1.errors = s.errors := by
  rw [WorkManager.updateOffset_eq]
  by_cases h1 : s.lastOffset ≤ s.derivedOffset
  · by_cases h2 : s.derivedOffset ≠ s.lastOffset <;> simp [h1, h2]
  · simp [h1]

theorem WorkManager.completeStep_of_zero (s : WorkManager n V) (i : Fin n)
    (h0 : (s.work i).outstanding = 0) : s.completeStep i = s := by
  unfold WorkManager.completeStep
  simp [h0]

theorem WorkManager.completeStep_of_ok (s : WorkManager n V) (i : Fin n)
    (h0 : (s.work i).outstanding ≠ 0)
    (hok : ((s.preEmit i).updateOffset).2 = true) :
    s.completeStep i =
      { ((s.preEmit i).updateOffset).1 with
        work := Function.update s.work i
          ((s.work i).completeLocal.clearCurrent.sendPending) } := by
  unfold WorkManager.completeStep
  simp only [h0, if_false, hok, if_true]
  have hw : ((s.preEmit i).updateOffset).1.work
      = Function.update s.work i (s.work i).completeLocal := by
    rw [WorkManager.updateOffset_work]
    rfl
  rw [hw, Function.update_same, Function.update_idem]

theorem WorkManager.completeStep_of_assert (s : WorkManager n V) (i : Fin n)
    (h0 : (s.work i).outstanding ≠ 0)
    (hok : ((s.preEmit i).updateOffset).2 = false) :
    s.completeStep i =
      { ((s.preEmit i).updateOffset).1 with
        work := Function.update s.work i
          { (s.work i).completeLocal with failed := true }
        errors := ((s.preEmit i).updateOffset).1.errors ++ ["assert"] } := by
  unfold WorkManager.completeStep
  simp only [h0, if_false, hok, Bool.false_eq_true, if_false]
  have hw : ((s.preEmit i).updateOffset).1.work
      = Function.update s.work i (s.work i).completeLocal := by
    rw [WorkManager.updateOffset_work]
    rfl
  rw [hw, Function.update_same, Function.update_idem]

theorem WorkManager.failStep_of_zero (s : WorkManager n V) (i : Fin n) (e : String)
    (h0 : (s.work i).outstanding = 0) : s.failStep i e = s := by
  unfold WorkManager.failStep
  simp [h0]

theorem WorkManager.failStep_of_out (s : WorkManager n V) (i : Fin n) (e : String)
    (h0 : (s.work i).outstanding ≠ 0) :
    s.failStep i e =
      { s with
        work := Function.update s.work i
          { s.work i with outstanding := (s.work i).outstanding - 1, failed := true }
        errors := s.errors ++ [e] } := by
  unfold WorkManager.failStep
  simp [h0]

/-! ### System-level preservation of the structural invariant -/

/-- Every worker satisfies the structural invariant. -/
def WorkAInv (s : WorkManager n V) : Prop := ∀ i, AInv (s.work i)

theorem WorkAInv.initialWA : WorkAInv (WorkManager.initial n V) :=
  fun _ => AInv.initialA

theorem WorkAInv.stepWA {s : WorkManager n V} (h : WorkAInv s) (e : Ev n V) :
    WorkAInv (s.step e) := by
  cases e with
  | add i k v o =>
      intro j
      simp only [WorkManager.step]
      by_cases hj : j = i
      · subst hj
        rw [Function.update_same]
        exact (h j).addA k v o
      · rw [Function.update_noteq hj]
        exact h j
  | complete i =>
      by_cases h0 : (s.work i).outstanding = 0
      · intro j
        simp only [WorkManager.step]
        rw [WorkManager.completeStep_of_zero s i h0]
        exact h j
      · intro j
        simp only [WorkManager.step]
        cases hok : ((s.preEmit i).updateOffset).2 with
        | true =>
            rw [WorkManager.completeStep_of_ok s i h0 hok]
            by_cases hj : j = i
            · subst hj
              simp only [Function.update_same]
              exact (h j).completeSuccessA h0
            · simp only [Function.update_noteq hj]
              exact h j
        | false =>
            rw [WorkManager.completeStep_of_assert s i h0 hok]
            by_cases hj : j = i
            · subst hj
              simp only [Function.update_same]
              exact (h j).completeAssertFailA h0
            · simp only [Function.update_noteq hj]
              exact h j
  | fail i e =>
      by_cases h0 : (s.work i).outstanding = 0
      · intro j
        simp only [WorkManager.step]
        rw [WorkManager.failStep_of_zero s i e h0]
        exact h j
      · intro j
        simp only [WorkManager.step]
        rw [WorkManager.failStep_of_out s i e h0]
        by_cases hj : j = i
        · subst hj
          simp only [Function.update_same]
          exact (h j).failLocalA h0
        · simp only [Function.update_noteq hj]
          exact h j
  | closeOne i =>
      intro j
      simp only [WorkManager.step]
      by_cases hj : j = i
      · subst hj
        rw [Function.update_same]
        exact (h j).closeA
      · rw [Function.update_noteq hj]
        exact h j
  | closeAll =>
      intro j
      simp only [WorkManager.step]
      exact (h j).closeA

theorem WorkAInv.runWA {s : WorkManager n V} (h : WorkAInv s) (tr : List (Ev n V)) :
    WorkAInv (s.run tr) := by
  induction tr generalizing s with
  | nil => exact h
  | cons e tr ih => exact ih (h.stepWA e)

/-! ### The order invariant (depends on the log precondition) -/

/-- The part of the `BatchManager` state invariant that depends on the log
precondition: offsets passed to `add` are monotonically non-decreasing.  In
particular, every offset added no later than the tail of the range belongs
to a successfully completed batch (`tail_done`). -/
structure BInv (b : BatchManager V) : Prop where
  added_le_head : ∀ o ∈ b.addedOffsets, ((o : ℤ) : WithBot ℤ) ≤ b.range.head
  pend_le : ∀ p : ℤ, b.pending.offset = some p → ∀ o ∈ b.pendingOffsets, o ≤ p
  cur_le : ∀ c : ℤ, b.current.offset = some c → ∀ o ∈ b.currentOffsets, o ≤ c
  cur_le_head : ∀ c : ℤ, b.current.offset = some c → ((c : ℤ) : WithBot ℤ) ≤ b.range.head
  tail_le_cur : ∀ c : ℤ, b.current.offset = some c → b.range.tail ≤ ((c : ℤ) : WithBot ℤ)
  cur_le_pend : ∀ c : ℤ, b.current.offset = some c → ∀ o ∈ b.pendingOffsets, c ≤ o
  tail_head : b.range.tail ≤ b.range.head
  tail_done : ∀ o ∈ b.addedOffsets, ((o : ℤ) : WithBot ℤ) ≤ b.range.tail → o ∈ b.doneOffsets
  eq_done : ∀ hd : ℤ, b.range.tail = ((hd : ℤ) : WithBot ℤ) →
    b.range.head = ((hd : ℤ) : WithBot ℤ) → hd ∈ b.doneOffsets

theorem BInv.initialB : BInv (BatchManager.initial (V := V)) := by
  constructor <;> simp [BatchManager.initial, OffsetBatch.initial]

theorem BatchManager.addMutate_of_empty {b : BatchManager V} (k : String) (v : V)
    (o : ℤ) (hE : b.range.head = (⊥ : WithBot ℤ)) :
    b.addMutate k v o =
      { b with
        range := { head := ((o : ℤ) : WithBot ℤ), tail := ((o - 1 : ℤ) : WithBot ℤ) }
        pending := { offset := some o, batch := b.pending.batch.add k v }
        addedOffsets := o :: b.addedOffsets
        pendingOffsets := o :: b.pendingOffsets } := by
  unfold BatchManager.addMutate
  simp [Range.empty, hE]

theorem BatchManager.addMutate_of_nonempty {b : BatchManager V} (k : String) (v : V)
    (o : ℤ) (hE : b.range.head ≠ (⊥ : WithBot ℤ)) :
    b.addMutate k v o =
      { b with
        range := { head := ((o : ℤ) : WithBot ℤ), tail := b.range.tail }
        pending := { offset := some o, batch := b.pending.batch.add k v }
        addedOffsets := o :: b.addedOffsets
        pendingOffsets := o :: b.pendingOffsets } := by
  unfold BatchManager.addMutate
  simp [Range.empty, hE]

theorem BInv.addMutateB {b : BatchManager V} (hA : AInv b) (hB : BInv b)
    (k : String) (v : V) (o : ℤ) (hmono : b.range.head ≤ ((o : ℤ) : WithBot ℤ)) :
    BInv (b.addMutate k v o) := by
  by_cases hE : b.range.head = (⊥ : WithBot ℤ)
  · rw [BatchManager.addMutate_of_empty k v o hE]
    have hadded : b.addedOffsets = [] := hA.empty_added hE
    have hcurN : b.current.offset = none := by
      cases hc : b.current.offset with
      | none => rfl
      | some c => exact absurd hE (hA.cur_head_ne (by simp [hc]))
    have hpendN : b.pendingOffsets = [] := by
      cases hq : b.pending.offset with
      | none => exact hA.pendoffs_iff.mp hq
      | some q =>
          have hqh := hA.pend_head q hq
          rw [hE] at hqh
          exact absurd hqh.symm WithBot.coe_ne_bot
    constructor
    · intro x hx
      have hx2 : x ∈ o :: b.addedOffsets := hx
      simp only [hadded, List.mem_cons, List.not_mem_nil, or_false] at hx2
      subst hx2
      exact le_refl _
    · intro p hp x hx
      have hp2 : o = p := Option.some_inj.mp hp
      have hx2 : x ∈ o :: b.pendingOffsets := hx
      simp only [hpendN, List.mem_cons, List.not_mem_nil, or_false] at hx2
      omega
    · intro c hc
      have hc2 : b.current.offset = some c := hc
      rw [hcurN] at hc2
      cases hc2
    · intro c hc
      have hc2 : b.current.offset = some c := hc
      rw [hcurN] at hc2
      cases hc2
    · intro c hc
      have hc2 : b.current.offset = some c := hc
      rw [hcurN] at hc2
      cases hc2
    · intro c hc
      have hc2 : b.current.offset = some c := hc
      rw [hcurN] at hc2
      cases hc2
    · exact WithBot.coe_le_coe.mpr (by omega)
    · intro x hx hxle
      have hx2 : x ∈ o :: b.addedOffsets := hx
      simp only [hadded, List.mem_cons, List.not_mem_nil, or_false] at hx2
      have hxle2 : (x : ℤ) ≤ o - 1 := WithBot.coe_le_coe.mp hxle
      omega
    · intro hd h1 h2
      have h1b : o - 1 = hd := WithBot.coe_inj.mp h1
      have h2b : o = hd := WithBot.coe_inj.mp h2
      omega
  · rw [BatchManager.addMutate_of_nonempty k v o hE]
    constructor
    · intro x hx
      have hx2 : x ∈ o :: b.addedOffsets := hx
      rcases List.mem_cons.mp hx2 with rfl | hx3
      · exact le_refl _
      · exact le_trans (hB.added_le_head x hx3) hmono
    · intro p hp x hx
      have hp2 : o = p := Option.some_inj.mp hp
      have hx2 : x ∈ o :: b.pendingOffsets := hx
      rcases List.mem_cons.mp hx2 with rfl | hx3
      · omega
      · cases hq : b.pending.offset with
        | none =>
            rw [hA.pendoffs_iff.mp hq] at hx3
            cases hx3
        | some q =>
            have h1 : x ≤ q := hB.pend_le q hq x hx3
            have h2 : ((q : ℤ) : WithBot ℤ) ≤ ((o : ℤ) : WithBot ℤ) := by
              rw [← hA.pend_head q hq]
              exact hmono
            have h3 : q ≤ o := WithBot.coe_le_coe.mp h2
            omega
    · intro c hc x hx
      exact hB.cur_le c hc x hx
    · intro c hc
      exact le_trans (hB.cur_le_head c hc) hmono
    · intro c hc
      exact hB.tail_le_cur c hc
    · intro c hc x hx
      have hx2 : x ∈ o :: b.pendingOffsets := hx
      rcases List.mem_cons.mp hx2 with rfl | hx3
      · exact WithBot.coe_le_coe.mp (le_trans (hB.cur_le_head c hc) hmono)
      · exact hB.cur_le_pend c hc x hx3
    · exact le_trans hB.tail_head hmono
    · intro x hx hxle
      have hx2 : x ∈ o :: b.addedOffsets := hx
      have hxle2 : ((x : ℤ) : WithBot ℤ) ≤ b.range.tail := hxle
      rcases List.mem_cons.mp hx2 with rfl | hx3
      · have h2 : b.range.tail = ((x : ℤ) : WithBot ℤ) :=
          le_antisymm (le_trans hB.tail_head hmono) hxle2
        have h3 : b.range.head = ((x : ℤ) : WithBot ℤ) :=
          le_antisymm hmono (by rw [← h2]; exact hB.tail_head)
        exact hB.eq_done x h2 h3
      · exact hB.tail_done x hx3 hxle2
    · intro hd h1 h2
      have h1b : b.range.tail = ((hd : ℤ) : WithBot ℤ) := h1
      have h2b : o = hd := WithBot.coe_inj.mp h2
      subst h2b
      have h3 : b.range.head = ((o : ℤ) : WithBot ℤ) :=
        le_antisymm hmono (by rw [← h1b]; exact hB.tail_head)
      exact hB.eq_done o h1b h3

theorem BInv.sendPendingB {b : BatchManager V} (hA : AInv b) (hB : BInv b)
    (hcur : b.current.offset = none) : BInv b.sendPending := by
  by_cases hcl : b.closed = true
  · rw [BatchManager.sendPending_of_closed b hcl]; exact hB
  · replace hcl : b.closed = false := by simpa using hcl
    cases hp : b.pending.offset with
    | none => rw [BatchManager.sendPending_of_pending_none b hp]; exact hB
    | some p =>
      rw [BatchManager.sendPending_of_open b p hcl hp]
      have hcuro : b.currentOffsets = [] := hA.curoffs_iff.mp hcur
      constructor
      · intro x hx
        exact hB.added_le_head x hx
      · intro q hq
        have hq2 : b.current.offset = some q := hq
        rw [hcur] at hq2
        cases hq2
      · intro c hc x hx
        have hc2 : b.pending.offset = some c := hc
        rw [hp] at hc2
        have hc3 : p = c := Option.some_inj.mp hc2
        subst hc3
        exact hB.pend_le p hp x hx
      · intro c hc
        have hc2 : b.pending.offset = some c := hc
        rw [hp] at hc2
        have hc3 : p = c := Option.some_inj.mp hc2
        subst hc3
        exact le_of_eq (hA.pend_head p hp).symm
      · intro c hc
        have hc2 : b.pending.offset = some c := hc
        rw [hp] at hc2
        have hc3 : p = c := Option.some_inj.mp hc2
        subst hc3
        exact le_trans hB.tail_head (le_of_eq (hA.pend_head p hp))
      · intro c hc x hx
        have hx2 : x ∈ b.currentOffsets := hx
        rw [hcuro] at hx2
        cases hx2
      · exact hB.tail_head
      · intro x hx hxle
        exact hB.tail_done x hx hxle
      · intro hd h1 h2
        exact hB.eq_done hd h1 h2

theorem BInv.addB {b : BatchManager V} (hA : AInv b) (hB : BInv b)
    (k : String) (v : V) (o : ℤ) (hmono : b.range.head ≤ ((o : ℤ) : WithBot ℤ)) :
    BInv (b.add k v o) := by
  unfold BatchManager.add
  rw [BatchManager.requestSend_eq]
  have hA1 := hA.addMutateA k v o
  have hB1 := hB.addMutateB hA k v o hmono
  split
  · exact hB1.sendPendingB hA1 (by assumption)
  · exact hB1

theorem BInv.closeB {b : BatchManager V} (hB : BInv b) : BInv b.close :=
  ⟨hB.added_le_head, hB.pend_le, hB.cur_le, hB.cur_le_head, hB.tail_le_cur,
    hB.cur_le_pend, hB.tail_head, hB.tail_done, hB.eq_done⟩

theorem BInv.failLocalB {b : BatchManager V} (hB : BInv b) :
    BInv { b with outstanding := b.outstanding - 1, failed := true } :=
  ⟨hB.added_le_head, hB.pend_le, hB.cur_le, hB.cur_le_head, hB.tail_le_cur,
    hB.cur_le_pend, hB.tail_head, hB.tail_done, hB.eq_done⟩

/-- The key safety step: at the moment a batch completes, every offset ever
added that is at most the new tail belongs to a completed batch. -/
theorem tail_done_completeLocal {b : BatchManager V} (hA : AInv b) (hB : BInv b)
    (h0 : b.outstanding ≠ 0) :
    ∀ o ∈ b.completeLocal.addedOffsets,
      ((o : ℤ) : WithBot ℤ) ≤ b.completeLocal.range.tail →
        o ∈ b.completeLocal.doneOffsets := by
  have hout1 : b.outstanding = 1 := le_antisymm hA.out_le (by omega)
  obtain ⟨c, hc⟩ := Option.isSome_iff_exists.mp (hA.out_cur hout1)
  have hco : b.completedOffset = ((c : ℤ) : WithBot ℤ) := by
    unfold BatchManager.completedOffset
    rw [hc]
  intro x hx hxle
  have hx2 : x ∈ b.addedOffsets := hx
  have hxle2 : ((x : ℤ) : WithBot ℤ) ≤ b.completedOffset := hxle
  rw [hco] at hxle2
  have hxle3 : x ≤ c := WithBot.coe_le_coe.mp hxle2
  show x ∈ b.currentOffsets ++ b.doneOffsets
  rcases (hA.added_iff x).mp hx2 with hmem | hmem | hmem
  · have h1 : c ≤ x := hB.cur_le_pend c hc x hmem
    have h2 : x = c := by omega
    subst h2
    exact List.mem_append.mpr (Or.inl (hA.cur_mem x hc))
  · exact List.mem_append.mpr (Or.inl hmem)
  · exact List.mem_append.mpr (Or.inr hmem)

theorem BInv.completeClearB {b : BatchManager V} (hA : AInv b) (hB : BInv b)
    (h0 : b.outstanding ≠ 0) : BInv b.completeLocal.clearCurrent := by
  have hout1 : b.outstanding = 1 := le_antisymm hA.out_le (by omega)
  obtain ⟨c, hc⟩ := Option.isSome_iff_exists.mp (hA.out_cur hout1)
  have hco : b.completedOffset = ((c : ℤ) : WithBot ℤ) := by
    unfold BatchManager.completedOffset
    rw [hc]
  have htd := tail_done_completeLocal hA hB h0
  constructor
  · intro x hx
    exact hB.added_le_head x hx
  · intro p hp x hx
    exact hB.pend_le p hp x hx
  · intro c1 hc1
    have hc2 : (none : Option ℤ) = some c1 := hc1
    cases hc2
  · intro c1 hc1
    have hc2 : (none : Option ℤ) = some c1 := hc1
    cases hc2
  · intro c1 hc1
    have hc2 : (none : Option ℤ) = some c1 := hc1
    cases hc2
  · intro c1 hc1
    have hc2 : (none : Option ℤ) = some c1 := hc1
    cases hc2
  · show b.completedOffset ≤ b.range.head
    rw [hco]
    exact hB.cur_le_head c hc
  · intro x hx hxle
    exact htd x hx hxle
  · intro hd h1 h2
    have h1b : b.completedOffset = ((hd : ℤ) : WithBot ℤ) := h1
    rw [hco] at h1b
    have h1c : c = hd := WithBot.coe_inj.mp h1b
    subst h1c
    show c ∈ b.currentOffsets ++ b.doneOffsets
    exact List.mem_append.mpr (Or.inl (hA.cur_mem c hc))

theorem BInv.completeSuccessB {b : BatchManager V} (hA : AInv b) (hB : BInv b)
    (h0 : b.outstanding ≠ 0) : BInv b.completeLocal.clearCurrent.sendPending :=
  (hB.completeClearB hA h0).sendPendingB (hA.completeClearA h0) rfl

theorem BInv.completeAssertFailB {b : BatchManager V} (hA : AInv b) (hB : BInv b)
    (h0 : b.outstanding ≠ 0) : BInv { b.completeLocal with failed := true } := by
  have hout1 : b.outstanding = 1 := le_antisymm hA.out_le (by omega)
  obtain ⟨c, hc⟩ := Option.isSome_iff_exists.mp (hA.out_cur hout1)
  have hco : b.completedOffset = ((c : ℤ) : WithBot ℤ) := by
    unfold BatchManager.completedOffset
    rw [hc]
  have htd := tail_done_completeLocal hA hB h0
  constructor
  · intro x hx
    exact hB.added_le_head x hx
  · intro p hp x hx
    exact hB.pend_le p hp x hx
  · intro c1 hc1
    have hc2 : b.current.offset = some c1 := hc1
    rw [hc] at hc2
    have hc3 : c = c1 := Option.some_inj.mp hc2
    subst hc3
    exact hB.cur_le c hc
  · intro c1 hc1
    have hc2 : b.current.offset = some c1 := hc1
    rw [hc] at hc2
    have hc3 : c = c1 := Option.some_inj.mp hc2
    subst hc3
    exact hB.cur_le_head c hc
  · intro c1 hc1
    have hc2 : b.current.offset = some c1 := hc1
    rw [hc] at hc2
    have hc3 : c = c1 := Option.some_inj.mp hc2
    subst hc3
    show b.completedOffset ≤ ((c : ℤ) : WithBot ℤ)
    rw [hco]
  · intro c1 hc1 x hx
    have hc2 : b.current.offset = some c1 := hc1
    rw [hc] at hc2
    have hc3 : c = c1 := Option.some_inj.mp hc2
    subst hc3
    exact hB.cur_le_pend c hc x hx
  · show b.completedOffset ≤ b.range.head
    rw [hco]
    exact hB.cur_le_head c hc
  · intro x hx hxle
    exact htd x hx hxle
  · intro hd h1 h2
    have h1b : b.completedOffset = ((hd : ℤ) : WithBot ℤ) := h1
    rw [hco] at h1b
    have h1c : c = hd := WithBot.coe_inj.mp h1b
    subst h1c
    show c ∈ b.currentOffsets ++ b.doneOffsets
    exact List.mem_append.mpr (Or.inl (hA.cur_mem c hc))

/-! ### System-level preservation of the full invariant -/

/-- Every worker satisfies both parts of the state invariant. -/
def WorkInv (s : WorkManager n V) : Prop := ∀ i, AInv (s.work i) ∧ BInv (s.work i)

theorem WorkInv.initialWI : WorkInv (WorkManager.initial n V) :=
  fun _ => ⟨AInv.initialA, BInv.initialB⟩

theorem WorkInv.stepWI {s : WorkManager n V} (h : WorkInv s) (e : Ev n V)
    (hok : okEv s e = true) : WorkInv (s.step e) := by
  cases e with
  | add i k v o =>
      have hmono : (s.work i).range.head ≤ ((o : ℤ) : WithBot ℤ) :=
        of_decide_eq_true hok
      intro j
      simp only [WorkManager.step]
      by_cases hj : j = i
      · subst hj
        rw [Function.update_same]
        exact ⟨(h j).1.addA k v o, (h j).2.addB (h j).1 k v o hmono⟩
      · rw [Function.update_noteq hj]
        exact h j
  | complete i =>
      by_cases h0 : (s.work i).outstanding = 0
      · intro j
        simp only [WorkManager.step]
        rw [WorkManager.completeStep_of_zero s i h0]
        exact h j
      · intro j
        simp only [WorkManager.step]
        cases hokk : ((s.preEmit i).updateOffset).2 with
        | true =>
            rw [WorkManager.completeStep_of_ok s i h0 hokk]
            by_cases hj : j = i
            · subst hj
              simp only [Function.update_same]
              exact ⟨(h j).1.completeSuccessA h0, (h j).2.completeSuccessB (h j).1 h0⟩
            · simp only [Function.update_noteq hj]
              exact h j
        | false =>
            rw [WorkManager.completeStep_of_assert s i h0 hokk]
            by_cases hj : j = i
            · subst hj
              simp only [Function.update_same]
              exact ⟨(h j).1.completeAssertFailA h0, (h j).2.completeAssertFailB (h j).1 h0⟩
            · simp only [Function.update_noteq hj]
              exact h j
  | fail i e =>
      by_cases h0 : (s.work i).outstanding = 0
      · intro j
        simp only [WorkManager.step]
        rw [WorkManager.failStep_of_zero s i e h0]
        exact h j
      · intro j
        simp only [WorkManager.step]
        rw [WorkManager.failStep_of_out s i e h0]
        by_cases hj : j = i
        · subst hj
          simp only [Function.update_same]
          exact ⟨(h j).1.failLocalA h0, (h j).2.failLocalB⟩
        · simp only [Function.update_noteq hj]
          exact h j
  | closeOne i =>
      intro j
      simp only [WorkManager.step]
      by_cases hj : j = i
      · subst hj
        rw [Function.update_same]
        exact ⟨(h j).1.closeA, (h j).2.closeB⟩
      · rw [Function.update_noteq hj]
        exact h j
  | closeAll =>
      intro j
      simp only [WorkManager.step]
      exact ⟨(h j).1.closeA, (h j).2.closeB⟩

theorem WorkInv.runWI {s : WorkManager n V} (h : WorkInv s) (tr : List (Ev n V))
    (hg : goodTrace s tr = true) : WorkInv (s.run tr) := by
  induction tr generalizing s with
  | nil => exact h
  | cons e tr ih =>
      rw [goodTrace, Bool.and_eq_true] at hg
      exact ih (h.stepWI e hg.1) hg.2

theorem goodTrace_append (s : WorkManager n V) (tr1 tr2 : List (Ev n V)) :
    goodTrace s (tr1 ++ tr2) = (goodTrace s tr1 && goodTrace (s.run tr1) tr2) := by
  induction tr1 generalizing s with
  | nil => simp [goodTrace, WorkManager.run]
  | cons e tr1 ih =>
      simp only [List.cons_append, goodTrace, ih, WorkManager.run, List.foldl_cons,
        Bool.and_assoc]
      rw [show tr1.append tr2 = tr1 ++ tr2 from rfl, ih]
      rfl

/-! ### Facts about the range union fold -/

theorem Range.empty_true_iff (r : Range) : r.empty = true ↔ r.head = ⊥ := by
  simp [Range.empty]

theorem Range.empty_false_iff (r : Range) : r.empty = false ↔ r.head ≠ ⊥ := by
  simp [Range.empty]

theorem Range.union_empty_iff (a b : Range) :
    (a.union b).empty = true ↔ (a.empty = true ∧ b.empty = true) := by
  unfold Range.union
  by_cases ha : a.empty = true
  · simp [ha]
  · replace ha : a.empty = false := by simpa using ha
    by_cases hb : b.empty = true
    · simp [ha, hb]
    · replace hb : b.empty = false := by simpa using hb
      simp only [ha, Bool.false_eq_true, if_false, hb]
      rw [Range.empty_true_iff]
      simp only [wmax_eq_max]
      constructor
      · intro hbot
        rw [max_eq_bot] at hbot
        exact absurd hbot.1 ((Range.empty_false_iff a).mp ha)
      · intro hcon
        exact absurd hcon.1 (by simp [ha])

theorem Range.union_tail_le_left (a b : Range) (ha : a.empty = false) :
    (a.union b).tail ≤ a.tail := by
  unfold Range.union
  rw [ha]
  by_cases hb : b.empty = true
  · simp [hb]
  · replace hb : b.empty = false := by simpa using hb
    simp only [Bool.false_eq_true, if_false, hb, wmin_eq_min]
    exact min_le_left _ _

theorem Range.union_tail_le_right (a b : Range) (hb : b.empty = false) :
    (a.union b).tail ≤ b.tail := by
  unfold Range.union
  by_cases ha : a.empty = true
  · simp [ha]
  · replace ha : a.empty = false := by simpa using ha
    simp only [ha, Bool.false_eq_true, if_false, hb, wmin_eq_min]
    exact min_le_right _ _

theorem foldl_union_nonempty (l : List (Fin n)) (w : Fin n → Range) (acc : Range)
    (hacc : acc.empty = false) :
    (l.foldl (fun a i => a.union (w i)) acc).empty = false := by
  induction l generalizing acc with
  | nil => exact hacc
  | cons i l ih =>
      simp only [List.foldl_cons]
      apply ih
      cases h : (acc.union (w i)).empty
      · rfl
      · exact absurd ((Range.union_empty_iff acc (w i)).mp h).1 (by simp [hacc])

theorem foldl_union_tail_le_acc (l : List (Fin n)) (w : Fin n → Range) (acc : Range)
    (hacc : acc.empty = false) :
    (l.foldl (fun a i => a.union (w i)) acc).tail ≤ acc.tail := by
  induction l generalizing acc with
  | nil => exact le_refl _
  | cons i l ih =>
      simp only [List.foldl_cons]
      have h1 : (acc.union (w i)).empty = false := by
        cases h : (acc.union (w i)).empty
        · rfl
        · exact absurd ((Range.union_empty_iff acc (w i)).mp h).1 (by simp [hacc])
      exact le_trans (ih _ h1) (Range.union_tail_le_left acc (w i) hacc)

theorem foldl_union_tail_le_mem (l : List (Fin n)) (w : Fin n → Range) (acc : Range)
    (i : Fin n) (hi : i ∈ l) (hne : (w i).empty = false) :
    (l.foldl (fun a j => a.union (w j)) acc).tail ≤ (w i).tail := by
  induction l generalizing acc with
  | nil => cases hi
  | cons j l ih =>
      simp only [List.foldl_cons]
      rcases List.mem_cons.mp hi with rfl | hi2
      · have h1 : (acc.union (w i)).empty = false := by
          cases h : (acc.union (w i)).empty
          · rfl
          · exact absurd ((Range.union_empty_iff acc (w i)).mp h).2 (by simp [hne])
        exact le_trans (foldl_union_tail_le_acc l w _ h1)
          (Range.union_tail_le_right acc (w i) hne)
      · exact ih _ hi2

theorem foldl_union_empty_mem (l : List (Fin n)) (w : Fin n → Range) (acc : Range)
    (hall : (l.foldl (fun a j => a.union (w j)) acc).empty = true) :
    ∀ i ∈ l, (w i).empty = true := by
  induction l generalizing acc with
  | nil => intro i hi; cases hi
  | cons j l ih =>
      simp only [List.foldl_cons] at hall
      intro i hi
      rcases List.mem_cons.mp hi with rfl | hi2
      · cases h : (w i).empty
        · -- the accumulator after the first union is non-empty, contradiction
          have h1 : (acc.union (w i)).empty = false := by
            cases h2 : (acc.union (w i)).empty
            · rfl
            · exact absurd ((Range.union_empty_iff acc (w i)).mp h2).2 (by simp [h])
          have := foldl_union_nonempty l w _ h1
          rw [this] at hall
          cases hall
        · rfl
      · exact ih _ hall i hi2

/-! ### Safety of an emitted offset -/

theorem updateOffset_checkpoints (s : WorkManager n V) :
    (s.updateOffset).1.checkpoints = s.checkpoints ∨
      ((s.updateOffset).1.checkpoints = s.checkpoints ++ [s.derivedOffset] ∧
        s.lastOffset ≤ s.derivedOffset ∧ s.derivedOffset ≠ s.lastOffset) := by
  rw [WorkManager.updateOffset_eq]
  by_cases h1 : s.lastOffset ≤ s.derivedOffset
  · by_cases h2 : s.derivedOffset ≠ s.lastOffset
    · right
      simp [h1, h2]
    · left
      simp [h1, h2]
  · left
    simp [h1]

/-- If `updateOffset` emits `offsetChanged o`, then at that moment every
offset ever added to any worker that is at most `o` belongs to a batch whose
send completed successfully. -/
theorem updateOffset_safe (s : WorkManager n V)
    (hsafe : ∀ i, ∀ o ∈ (s.work i).addedOffsets,
        ((o : ℤ) : WithBot ℤ) ≤ (s.work i).range.tail → o ∈ (s.work i).doneOffsets)
    (hempty : ∀ i, (s.work i).range.head = ⊥ → (s.work i).addedOffsets = [])
    (o : WithBot ℤ)
    (hemit : (s.updateOffset).1.checkpoints = s.checkpoints ++ [o]) :
    ∀ i, ∀ x ∈ (s.work i).addedOffsets, ((x : ℤ) : WithBot ℤ) ≤ o →
      x ∈ (s.work i).doneOffsets := by
  rcases updateOffset_checkpoints s with hck | ⟨hck, _, _⟩
  · rw [hck] at hemit
    have : s.checkpoints.length = (s.checkpoints ++ [o]).length := by rw [← hemit]
    simp at this
  · rw [hck] at hemit
    have ho : o = s.derivedOffset := by
      have := List.append_inj_right hemit rfl
      simp at this
      exact this.symm
    subst ho
    unfold WorkManager.derivedOffset at *
    by_cases hu : (s.unionFold).empty = true
    · -- all ranges empty: nothing was ever added
      intro i x hx _
      have hie : (s.work i).range.empty = true := by
        unfold WorkManager.unionFold at hu
        exact foldl_union_empty_mem _ _ _ hu i (List.mem_finRange i)
      rw [hempty i ((Range.empty_true_iff _).mp hie)] at hx
      cases hx
    · replace hu : (s.unionFold).empty = false := by simpa using hu
      intro i x hx hxle
      by_cases hie : (s.work i).range.empty = true
      · rw [hempty i ((Range.empty_true_iff _).mp hie)] at hx
        cases hx
      · replace hie : (s.work i).range.empty = false := by simpa using hie
        have h1 : (s.unionFold).tail ≤ (s.work i).range.tail := by
          unfold WorkManager.unionFold
          exact foldl_union_tail_le_mem _ _ _ i (List.mem_finRange i) hie
        rw [hu] at hxle
        simp only [Bool.false_eq_true, if_false] at hxle
        exact hsafe i x hx (le_trans hxle h1)

/-! ### Bookkeeping lemmas about the steps -/

theorem BatchManager.sendPending_added (b : BatchManager V) :
    (b.sendPending).addedOffsets = b.addedOffsets := by
  unfold BatchManager.sendPending
  split
  · rfl
  · split <;> rfl

theorem BatchManager.sendPending_done (b : BatchManager V) :
    (b.sendPending).doneOffsets = b.doneOffsets := by
  unfold BatchManager.sendPending
  split
  · rfl
  · split <;> rfl

theorem WorkManager.run_append (s : WorkManager n V) (tr1 tr2 : List (Ev n V)) :
    s.run (tr1 ++ tr2) = (s.run tr1).run tr2 := by
  unfold WorkManager.run
  rw [List.foldl_append]

theorem WorkManager.failStep_checkpoints (s : WorkManager n V) (i : Fin n) (e : String) :
    (s.failStep i e).checkpoints = s.checkpoints := by
  by_cases h0 : (s.work i).outstanding = 0
  · rw [WorkManager.failStep_of_zero s i e h0]
  · rw [WorkManager.failStep_of_out s i e h0]

theorem WorkManager.completeStep_checkpoints (s : WorkManager n V) (i : Fin n)
    (h0 : (s.work i).outstanding ≠ 0) :
    (s.completeStep i).checkpoints = ((s.preEmit i).updateOffset).1.checkpoints := by
  unfold WorkManager.completeStep
  simp only [h0, if_false]
  split <;> rfl

theorem WorkManager.completeStep_added_done (s : WorkManager n V) (i : Fin n)
    (h0 : (s.work i).outstanding ≠ 0) (j : Fin n) :
    ((s.completeStep i).work j).addedOffsets = (((s.preEmit i).work j)).addedOffsets ∧
      ((s.completeStep i).work j).doneOffsets = (((s.preEmit i).work j)).doneOffsets := by
  have hw : (s.preEmit i).work = Function.update s.work i (s.work i).completeLocal := rfl
  by_cases hj : j = i
  · rw [hj]
    cases hok : ((s.preEmit i).updateOffset).2 with
    | true =>
        rw [WorkManager.completeStep_of_ok s i h0 hok]
        simp only [Function.update_same, hw]
        constructor
        · rw [BatchManager.sendPending_added]
          rfl
        · rw [BatchManager.sendPending_done]
          rfl
    | false =>
        rw [WorkManager.completeStep_of_assert s i h0 hok]
        simp only [Function.update_same, hw]
        exact ⟨trivial, trivial⟩
  · cases hok : ((s.preEmit i).updateOffset).2 with
    | true =>
        rw [WorkManager.completeStep_of_ok s i h0 hok]
        simp only [hw, Function.update_apply, hj, if_false]
        exact ⟨trivial, trivial⟩
    | false =>
        rw [WorkManager.completeStep_of_assert s i h0 hok]
        simp only [hw, Function.update_apply, hj, if_false]
        exact ⟨trivial, trivial⟩

theorem WorkManager.completeStep_work_self_ok (s : WorkManager n V) (j : Fin n)
    (h0 : (s.work j).outstanding ≠ 0) (hok : ((s.preEmit j).updateOffset).2 = true) :
    (s.completeStep j).work j = (s.work j).completeLocal.clearCurrent.sendPending := by
  rw [WorkManager.completeStep_of_ok s j h0 hok]
  show Function.update s.work j _ j = _
  exact Function.update_same _ _ _

theorem WorkManager.completeStep_work_self_assert (s : WorkManager n V) (j : Fin n)
    (h0 : (s.work j).outstanding ≠ 0) (hok : ((s.preEmit j).updateOffset).2 = false) :
    (s.completeStep j).work j = { (s.work j).completeLocal with failed := true } := by
  rw [WorkManager.completeStep_of_assert s j h0 hok]
  show Function.update s.work j _ j = _
  exact Function.update_same _ _ _

theorem WorkManager.completeStep_work_other (s : WorkManager n V) (j : Fin n)
    (h0 : (s.work j).outstanding ≠ 0) (i : Fin n) (hij : i ≠ j) :
    (s.completeStep j).work i = s.work i := by
  cases hok : ((s.preEmit j).updateOffset).2 with
  | true =>
      rw [WorkManager.completeStep_of_ok s j h0 hok]
      show Function.update s.work j _ i = _
      exact Function.update_noteq hij _ _
  | false =>
      rw [WorkManager.completeStep_of_assert s j h0 hok]
      show Function.update s.work j _ i = _
      exact Function.update_noteq hij _ _

theorem WorkManager.failStep_work_self (s : WorkManager n V) (j : Fin n) (e : String)
    (h0 : (s.work j).outstanding ≠ 0) :
    (s.failStep j e).work j
      = { s.work j with outstanding := (s.work j).outstanding - 1, failed := true } := by
  rw [WorkManager.failStep_of_out s j e h0]
  show Function.update s.work j _ j = _
  exact Function.update_same _ _ _

theorem WorkManager.failStep_work_other (s : WorkManager n V) (j : Fin n) (e : String)
    (i : Fin n) (hij : i ≠ j) :
    (s.failStep j e).work i = s.work i := by
  by_cases h0 : (s.work j).outstanding = 0
  · rw [WorkManager.failStep_of_zero s j e h0]
  · rw [WorkManager.failStep_of_out s j e h0]
    show Function.update s.work j _ i = _
    exact Function.update_noteq hij _ _

theorem WorkManager.updateOffset_workCompletes (s : WorkManager n V) :
    (s.updateOffset).1.workCompletes = s.workCompletes := by
  rw [WorkManager.updateOffset_eq]
  by_cases h1 : s.lastOffset ≤ s.derivedOffset
  · by_cases h2 : s.derivedOffset ≠ s.lastOffset
    · rw [if_pos h1, if_pos h2]
    · rw [if_pos h1, if_neg h2]
  · rw [if_neg h1]

theorem WorkManager.completeStep_workCompletes (s : WorkManager n V) (j : Fin n)
    (h0 : (s.work j).outstanding ≠ 0) :
    (s.completeStep j).workCompletes
      = s.workCompletes ++ [(s.work j).completedOffset] := by
  unfold WorkManager.completeStep
  simp only [h0, if_false]
  split
  · show ((s.preEmit j).updateOffset).1.workCompletes = _
    rw [WorkManager.updateOffset_workCompletes]
    rfl
  · show ((s.preEmit j).updateOffset).1.workCompletes = _
    rw [WorkManager.updateOffset_workCompletes]
    rfl

/-! ### Claim theorems -/

/-- C1 (checkpoint safety).  Whenever the `WorkManager` emits
`offsetChanged o` — i.e. a step extends the list of host `checkpoint` calls
by `o` — then for every `BatchManager` `i` and every offset `x ≤ o` that was
ever passed to `i`'s `add`, the batch containing that add has completed its
send successfully (`x` is among `i`'s `doneOffsets`).  Precondition: the
offsets passed to `add` along the trace are monotonically non-decreasing
(`goodTrace`). -/
theorem c1_checkpoint_safety {n : ℕ} {V : Type}
    (tr1 : List (Ev n V)) (e : Ev n V)
    (hgood : goodTrace (WorkManager.initial n V) (tr1 ++ [e]) = true)
    (o : WithBot ℤ)
    (hemit : ((WorkManager.initial n V).run (tr1 ++ [e])).checkpoints
      = ((WorkManager.initial n V).run tr1).checkpoints ++ [o]) :
    ∀ (i : Fin n) (x : ℤ),
      x ∈ (((WorkManager.initial n V).run (tr1 ++ [e])).work i).addedOffsets →
      ((x : ℤ) : WithBot ℤ) ≤ o →
        x ∈ (((WorkManager.initial n V).run (tr1 ++ [e])).work i).doneOffsets := by
  rw [goodTrace_append] at hgood
  rw [Bool.and_eq_true] at hgood
  obtain ⟨hgood1, hgood2⟩ := hgood
  have hInv : WorkInv ((WorkManager.initial n V).run tr1) :=
    WorkInv.initialWI.runWI tr1 hgood1
  set s : WorkManager n V := (WorkManager.initial n V).run tr1 with hs
  have hrun : (WorkManager.initial n V).run (tr1 ++ [e]) = s.step e := by
    rw [WorkManager.run_append]
    rfl
  rw [hrun] at hemit ⊢
  -- only a completion step can extend the checkpoint list
  cases e with
  | add i k v o1 =>
      exfalso
      have hck : (s.step (Ev.add i k v o1)).checkpoints = s.checkpoints := rfl
      rw [hck] at hemit
      have : s.checkpoints.length = (s.checkpoints ++ [o]).length := by rw [← hemit]
      simp at this
  | fail i e1 =>
      exfalso
      have hck : (s.step (Ev.fail i e1)).checkpoints = s.checkpoints :=
        WorkManager.failStep_checkpoints s i e1
      rw [hck] at hemit
      have : s.checkpoints.length = (s.checkpoints ++ [o]).length := by rw [← hemit]
      simp at this
  | closeOne i =>
      exfalso
      have hck : (s.step (Ev.closeOne i)).checkpoints = s.checkpoints := rfl
      rw [hck] at hemit
      have : s.checkpoints.length = (s.checkpoints ++ [o]).length := by rw [← hemit]
      simp at this
  | closeAll =>
      exfalso
      have hck : (s.step Ev.closeAll).checkpoints = s.checkpoints := rfl
      rw [hck] at hemit
      have : s.checkpoints.length = (s.checkpoints ++ [o]).length := by rw [← hemit]
      simp at this
  | complete i =>
      by_cases h0 : (s.work i).outstanding = 0
      · exfalso
        have hck : s.step (Ev.complete i) = s := WorkManager.completeStep_of_zero s i h0
        rw [hck] at hemit
        have : s.checkpoints.length = (s.checkpoints ++ [o]).length := by rw [← hemit]
        simp at this
      · -- the emission happened inside `updateOffset` on the pre-emit state
        have hck : (s.step (Ev.complete i)).checkpoints
            = ((s.preEmit i).updateOffset).1.checkpoints :=
          WorkManager.completeStep_checkpoints s i h0
        rw [hck] at hemit
        have hpre_ck : (s.preEmit i).checkpoints = s.checkpoints := rfl
        rw [← hpre_ck] at hemit
        have hsafe : ∀ j, ∀ x ∈ ((s.preEmit i).work j).addedOffsets,
            ((x : ℤ) : WithBot ℤ) ≤ ((s.preEmit i).work j).range.tail →
              x ∈ ((s.preEmit i).work j).doneOffsets := by
          intro j
          have hw : (s.preEmit i).work = Function.update s.work i (s.work i).completeLocal := rfl
          by_cases hj : j = i
          · subst hj
            rw [hw, Function.update_same]
            exact tail_done_completeLocal (hInv j).1 (hInv j).2 h0
          · rw [hw, Function.update_noteq hj]
            exact (hInv j).2.tail_done
        have hempty : ∀ j, ((s.preEmit i).work j).range.head = ⊥ →
            ((s.preEmit i).work j).addedOffsets = [] := by
          intro j
          have hw : (s.preEmit i).work = Function.update s.work i (s.work i).completeLocal := rfl
          by_cases hj : j = i
          · subst hj
            rw [hw, Function.update_same]
            intro hh
            exact (hInv j).1.empty_added hh
          · rw [hw, Function.update_noteq hj]
            exact (hInv j).1.empty_added
        have hmain := updateOffset_safe (s.preEmit i) hsafe hempty o hemit
        intro j x hx hxle
        have had := WorkManager.completeStep_added_done s i h0 j
        have hx2 : x ∈ ((s.preEmit i).work j).addedOffsets := by
          rw [← had.1]
          exact hx
        have hdone := hmain j x hx2 hxle
        show x ∈ ((s.completeStep i).work j).doneOffsets
        rw [had.2]
        exact hdone

/-- Witness for C1 at a concrete input: one worker, one add at offset 1,
one completed send, one emitted checkpoint at 1. -/
theorem c1_checkpoint_safety_witness :
    (1 : ℤ) ∈ (((WorkManager.initial 1 Unit).run
      ([Ev.add 0 "k" () 1] ++ [Ev.complete 0])).work 0).doneOffsets :=
  c1_checkpoint_safety [Ev.add 0 "k" () 1] (Ev.complete 0) (by decide)
    ((1 : ℤ) : WithBot ℤ) (by decide) 0 1 (by decide) (by decide)

/-- The checkpoint-monotonicity invariant: the emitted offsets are strictly
increasing and all bounded by `lastOffset`. -/
def CkInv (s : WorkManager n V) : Prop :=
  List.Chain' (· < ·) s.checkpoints ∧ ∀ o ∈ s.checkpoints, o ≤ s.lastOffset

theorem CkInv.updateOffsetCk {s : WorkManager n V} (h : CkInv s) :
    CkInv (s.updateOffset).1 := by
  rw [WorkManager.updateOffset_eq]
  by_cases h1 : s.lastOffset ≤ s.derivedOffset
  · by_cases h2 : s.derivedOffset ≠ s.lastOffset
    · rw [if_pos h1, if_pos h2]
      have hlt : s.lastOffset < s.derivedOffset := lt_of_le_of_ne h1 (Ne.symm h2)
      constructor
      · show List.Chain' (· < ·) (s.checkpoints ++ [s.derivedOffset])
        rw [List.chain'_append]
        refine ⟨h.1, List.chain'_singleton _, ?_⟩
        intro x hx y hy
        simp only [List.head?_cons, Option.mem_def, Option.some.injEq] at hy
        subst hy
        obtain ⟨hne, hxl⟩ := List.mem_getLast?_eq_getLast hx
        have hxmem : x ∈ s.checkpoints := hxl ▸ List.getLast_mem hne
        exact lt_of_le_of_lt (h.2 x hxmem) hlt
      · intro o ho
        have ho2 : o ∈ s.checkpoints ++ [s.derivedOffset] := ho
        show o ≤ s.derivedOffset
        rcases List.mem_append.mp ho2 with ho3 | ho3
        · exact le_trans (h.2 o ho3) (le_of_lt hlt)
        · simp only [List.mem_singleton] at ho3
          subst ho3
          exact le_refl _
    · rw [if_pos h1, if_neg h2]
      exact h
  · rw [if_neg h1]
    exact h

theorem CkInv.stepCk {s : WorkManager n V} (h : CkInv s) (e : Ev n V) :
    CkInv (s.step e) := by
  cases e with
  | add i k v o => exact h
  | closeOne i => exact h
  | closeAll => exact h
  | fail i e1 =>
      by_cases h0 : (s.work i).outstanding = 0
      · rw [WorkManager.step, WorkManager.failStep_of_zero s i e1 h0]
        exact h
      · rw [WorkManager.step, WorkManager.failStep_of_out s i e1 h0]
        exact h
  | complete i =>
      by_cases h0 : (s.work i).outstanding = 0
      · rw [WorkManager.step, WorkManager.completeStep_of_zero s i h0]
        exact h
      · have hpre : CkInv (s.preEmit i) := h
        have hupd := hpre.updateOffsetCk
        cases hok : (((s.preEmit i)).updateOffset).2 with
        | true =>
            rw [WorkManager.step, WorkManager.completeStep_of_ok s i h0 hok]
            exact hupd
        | false =>
            rw [WorkManager.step, WorkManager.completeStep_of_assert s i h0 hok]
            exact hupd

theorem CkInv.runCk {s : WorkManager n V} (h : CkInv s) (tr : List (Ev n V)) :
    CkInv (s.run tr) := by
  induction tr generalizing s with
  | nil => exact h
  | cons e tr ih => exact ih (h.stepCk e)

theorem lastOffset_mono_updateOffset (s : WorkManager n V) :
    s.lastOffset ≤ (s.updateOffset).1.lastOffset := by
  rw [WorkManager.updateOffset_eq]
  by_cases h1 : s.lastOffset ≤ s.derivedOffset
  · by_cases h2 : s.derivedOffset ≠ s.lastOffset
    · rw [if_pos h1, if_pos h2]
      exact h1
    · rw [if_pos h1, if_neg h2]
  · rw [if_neg h1]

theorem lastOffset_mono_step (s : WorkManager n V) (e : Ev n V) :
    s.lastOffset ≤ (s.step e).lastOffset := by
  cases e with
  | add i k v o => exact le_refl _
  | closeOne i => exact le_refl _
  | closeAll => exact le_refl _
  | fail i e1 =>
      by_cases h0 : (s.work i).outstanding = 0
      · rw [WorkManager.step, WorkManager.failStep_of_zero s i e1 h0]
      · rw [WorkManager.step, WorkManager.failStep_of_out s i e1 h0]
  | complete i =>
      by_cases h0 : (s.work i).outstanding = 0
      · rw [WorkManager.step, WorkManager.completeStep_of_zero s i h0]
      · cases hok : (((s.preEmit i)).updateOffset).2 with
        | true =>
            rw [WorkManager.step, WorkManager.completeStep_of_ok s i h0 hok]
            exact lastOffset_mono_updateOffset (s.preEmit i)
        | false =>
            rw [WorkManager.step, WorkManager.completeStep_of_assert s i h0 hok]
            exact lastOffset_mono_updateOffset (s.preEmit i)

theorem lastOffset_mono_run (s : WorkManager n V) (tr : List (Ev n V)) :
    s.lastOffset ≤ (s.run tr).lastOffset := by
  induction tr generalizing s with
  | nil => exact le_refl _
  | cons e tr ih => exact le_trans (lastOffset_mono_step s e) (ih (s.step e))

/-- C2 (monotonic checkpoint).  In every execution the sequence of offsets
emitted via `offsetChanged` (the arguments of `host.checkpoint`) is strictly
increasing, and `lastOffset` is monotonically non-decreasing across the
whole execution. -/
theorem c2_monotonic_checkpoint {n : ℕ} {V : Type} (tr1 tr2 : List (Ev n V)) :
    List.Chain' (· < ·) (((WorkManager.initial n V).run (tr1 ++ tr2)).checkpoints)
    ∧ ((WorkManager.initial n V).run tr1).lastOffset
        ≤ ((WorkManager.initial n V).run (tr1 ++ tr2)).lastOffset := by
  constructor
  · have hinit : CkInv (WorkManager.initial n V) := by
      constructor
      · simp [WorkManager.initial]
      · intro o ho
        simp [WorkManager.initial] at ho
    exact (hinit.runCk (tr1 ++ tr2)).1
  · rw [WorkManager.run_append]
    exact lastOffset_mono_run _ tr2

/-! ### A failed pipeline is frozen -/

/-- If worker `i`'s range is non-empty, any emitted offset is bounded by
`i`'s tail. -/
theorem updateOffset_emit_le_tail (s : WorkManager n V) (i : Fin n)
    (hne : (s.work i).range.empty = false) (o : WithBot ℤ)
    (hemit : (s.updateOffset).1.checkpoints = s.checkpoints ++ [o]) :
    o ≤ (s.work i).range.tail := by
  rcases updateOffset_checkpoints s with hck | ⟨hck, _, _⟩
  · rw [hck] at hemit
    have : s.checkpoints.length = (s.checkpoints ++ [o]).length := by rw [← hemit]
    simp at this
  · rw [hck] at hemit
    have ho : o = s.derivedOffset := by
      have := List.append_inj_right hemit rfl
      simp at this
      exact this.symm
    subst ho
    unfold WorkManager.derivedOffset
    by_cases hu : (s.unionFold).empty = true
    · exfalso
      have hie : (s.work i).range.empty = true := by
        unfold WorkManager.unionFold at hu
        exact foldl_union_empty_mem _ _ _ hu i (List.mem_finRange i)
      rw [hie] at hne
      cases hne
    · replace hu : (s.unionFold).empty = false := by simpa using hu
      rw [hu]
      simp only [Bool.false_eq_true, if_false]
      unfold WorkManager.unionFold
      exact foldl_union_tail_le_mem _ _ _ i (List.mem_finRange i) hne

/-- When a send is in flight (or stuck after a failure), `add` only mutates
the range head and the pending batch: `requestSend` returns early. -/
theorem BatchManager.add_of_current_some {b : BatchManager V}
    (hc : b.current.offset.isSome) (k : String) (v : V) (o : ℤ) :
    b.add k v o = b.addMutate k v o := by
  unfold BatchManager.add
  rw [BatchManager.requestSend_eq]
  have he : (b.addMutate k v o).current.offset = b.current.offset := rfl
  rw [he, if_neg]
  intro hn
  rw [hn] at hc
  cases hc

theorem WorkManager.run_cons (s : WorkManager n V) (e : Ev n V) (tr : List (Ev n V)) :
    s.run (e :: tr) = (s.step e).run tr := rfl

theorem frozen_step {s : WorkManager n V} {i : Fin n}
    (hA : AInv (s.work i)) (hf : (s.work i).failed = true) (e : Ev n V) :
    AInv ((s.step e).work i) ∧ ((s.step e).work i).failed = true
    ∧ ((s.step e).work i).current = (s.work i).current
    ∧ ((s.step e).work i).sends = (s.work i).sends
    ∧ ((s.step e).work i).range.tail = (s.work i).range.tail
    ∧ ((s.step e).checkpoints = s.checkpoints ∨
        ∃ o, (s.step e).checkpoints = s.checkpoints ++ [o]
          ∧ o ≤ (s.work i).range.tail) := by
  obtain ⟨hout0, hcs⟩ := hA.fail_cur hf
  have hhead : (s.work i).range.head ≠ ⊥ := hA.cur_head_ne hcs
  cases e with
  | add j k v o =>
      by_cases hj : j = i
      · subst hj
        have hwork : (s.step (Ev.add j k v o)).work j = (s.work j).add k v o :=
          Function.update_same _ _ _
        rw [hwork, BatchManager.add_of_current_some hcs k v o]
        refine ⟨?_, hf, rfl, rfl, ?_, Or.inl rfl⟩
        · have h1 := hA.addA k v o
          rw [BatchManager.add_of_current_some hcs k v o] at h1
          exact h1
        · rw [BatchManager.addMutate_of_nonempty k v o hhead]
      · have hwork : (s.step (Ev.add j k v o)).work i = s.work i :=
          Function.update_noteq (Ne.symm hj) _ _
        rw [hwork]
        exact ⟨hA, hf, rfl, rfl, rfl, Or.inl rfl⟩
  | complete j =>
      by_cases hj : j = i
      · subst hj
        rw [WorkManager.step, WorkManager.completeStep_of_zero s j hout0]
        exact ⟨hA, hf, rfl, rfl, rfl, Or.inl rfl⟩
      · by_cases h0j : (s.work j).outstanding = 0
        · rw [WorkManager.step, WorkManager.completeStep_of_zero s j h0j]
          exact ⟨hA, hf, rfl, rfl, rfl, Or.inl rfl⟩
        · have hworkpre : (s.preEmit j).work i = s.work i :=
            Function.update_noteq (Ne.symm hj) _ _
          have hckpre : (s.preEmit j).checkpoints = s.checkpoints := rfl
          have hwork : ((s.step (Ev.complete j))).work i = s.work i := by
            rw [WorkManager.step]
            cases hok : ((s.preEmit j).updateOffset).2 with
            | true =>
                rw [WorkManager.completeStep_of_ok s j h0j hok]
                exact Function.update_noteq (Ne.symm hj) _ _
            | false =>
                rw [WorkManager.completeStep_of_assert s j h0j hok]
                exact Function.update_noteq (Ne.symm hj) _ _
          rw [hwork]
          refine ⟨hA, hf, rfl, rfl, rfl, ?_⟩
          have hck : (s.step (Ev.complete j)).checkpoints
              = ((s.preEmit j).updateOffset).1.checkpoints :=
            WorkManager.completeStep_checkpoints s j h0j
          rcases updateOffset_checkpoints (s.preEmit j) with hck2 | ⟨hck2, _, _⟩
          · left
            rw [hck, hck2, hckpre]
          · right
            refine ⟨(s.preEmit j).derivedOffset, ?_, ?_⟩
            · rw [hck, hck2, hckpre]
            · have hne : ((s.preEmit j).work i).range.empty = false := by
                rw [hworkpre]
                rw [Range.empty_false_iff]
                exact hhead
              have h3 := updateOffset_emit_le_tail (s.preEmit j) i hne
                (s.preEmit j).derivedOffset (by rw [hck2])
              rw [hworkpre] at h3
              exact h3
  | fail j e1 =>
      by_cases hj : j = i
      · subst hj
        rw [WorkManager.step, WorkManager.failStep_of_zero s j e1 hout0]
        exact ⟨hA, hf, rfl, rfl, rfl, Or.inl rfl⟩
      · by_cases h0j : (s.work j).outstanding = 0
        · rw [WorkManager.step, WorkManager.failStep_of_zero s j e1 h0j]
          exact ⟨hA, hf, rfl, rfl, rfl, Or.inl rfl⟩
        · have hwork : (s.step (Ev.fail j e1)).work i = s.work i := by
            rw [WorkManager.step, WorkManager.failStep_of_out s j e1 h0j]
            exact Function.update_noteq (Ne.symm hj) _ _
          rw [hwork]
          refine ⟨hA, hf, rfl, rfl, rfl, Or.inl ?_⟩
          rw [WorkManager.step, WorkManager.failStep_of_out s j e1 h0j]
  | closeOne j =>
      by_cases hj : j = i
      · subst hj
        have hwork : (s.step (Ev.closeOne j)).work j = (s.work j).close :=
          Function.update_same _ _ _
        rw [hwork]
        exact ⟨hA.closeA, hf, rfl, rfl, rfl, Or.inl rfl⟩
      · have hwork : (s.step (Ev.closeOne j)).work i = s.work i :=
          Function.update_noteq (Ne.symm hj) _ _
        rw [hwork]
        exact ⟨hA, hf, rfl, rfl, rfl, Or.inl rfl⟩
  | closeAll =>
      exact ⟨hA.closeA, hf, rfl, rfl, rfl, Or.inl rfl⟩

theorem frozen_run {s : WorkManager n V} {i : Fin n}
    (hA : AInv (s.work i)) (hf : (s.work i).failed = true) (tr : List (Ev n V)) :
    AInv ((s.run tr).work i) ∧ ((s.run tr).work i).failed = true
    ∧ ((s.run tr).work i).current = (s.work i).current
    ∧ ((s.run tr).work i).sends = (s.work i).sends
    ∧ ((s.run tr).work i).range.tail = (s.work i).range.tail
    ∧ ∀ o ∈ (s.run tr).checkpoints,
        o ∈ s.checkpoints ∨ o ≤ (s.work i).range.tail := by
  induction tr generalizing s with
  | nil =>
      exact ⟨hA, hf, rfl, rfl, rfl, fun o ho => Or.inl ho⟩
  | cons e tr ih =>
      obtain ⟨hA1, hf1, hcur1, hsends1, htail1, hck1⟩ := frozen_step hA hf e
      obtain ⟨hA2, hf2, hcur2, hsends2, htail2, hck2⟩ := ih hA1 hf1
      rw [WorkManager.run_cons]
      refine ⟨hA2, hf2, by rw [hcur2, hcur1], by rw [hsends2, hsends1],
        by rw [htail2, htail1], ?_⟩
      intro o ho
      rcases hck2 o ho with ho2 | ho2
      · rcases hck1 with hc | ⟨o1, hc, ho1⟩
        · rw [hc] at ho2
          exact Or.inl ho2
        · rw [hc] at ho2
          rcases List.mem_append.mp ho2 with ho3 | ho3
          · exact Or.inl ho3
          · simp only [List.mem_singleton] at ho3
            subst ho3
            exact Or.inr ho1
      · rw [htail1] at ho2
        exact Or.inr ho2

/-- C9 (implicit — failure permanently halts a pipeline).  Once a
`BatchManager`'s sender has rejected (`failed` is set), in any continuation
of the execution: it stays failed, its `current` batch is never cleared, its
sender is never invoked again (the list of sent batches is frozen), its
`range.tail` never advances, no send is outstanding, and every subsequently
emitted checkpoint offset is bounded by that pipeline's tail. -/
theorem c9_failure_halts {n : ℕ} {V : Type} (tr1 tr2 : List (Ev n V)) (i : Fin n)
    (hfail : (((WorkManager.initial n V).run tr1).work i).failed = true) :
    ((((WorkManager.initial n V).run (tr1 ++ tr2)).work i).failed = true)
    ∧ (((WorkManager.initial n V).run (tr1 ++ tr2)).work i).current
        = (((WorkManager.initial n V).run tr1).work i).current
    ∧ (((WorkManager.initial n V).run (tr1 ++ tr2)).work i).sends
        = (((WorkManager.initial n V).run tr1).work i).sends
    ∧ (((WorkManager.initial n V).run (tr1 ++ tr2)).work i).range.tail
        = (((WorkManager.initial n V).run tr1).work i).range.tail
    ∧ (((WorkManager.initial n V).run (tr1 ++ tr2)).work i).outstanding = 0
    ∧ ∀ o ∈ ((WorkManager.initial n V).run (tr1 ++ tr2)).checkpoints,
        o ∈ ((WorkManager.initial n V).run tr1).checkpoints
        ∨ o ≤ (((WorkManager.initial n V).run tr1).work i).range.tail := by
  have hA : AInv (((WorkManager.initial n V).run tr1).work i) :=
    WorkAInv.initialWA.runWA tr1 i
  rw [WorkManager.run_append]
  obtain ⟨hA2, hf2, hcur2, hsends2, htail2, hck2⟩ := frozen_run hA hfail tr2
  exact ⟨hf2, hcur2, hsends2, htail2, (hA2.fail_cur hf2).1, hck2⟩

/-- Witness for C9 at a concrete input: after an add and a sender failure,
a further add leaves the list of sent batches unchanged. -/
theorem c9_failure_halts_witness :
    (((WorkManager.initial 1 Unit).run
        ([Ev.add 0 "k" () 1, Ev.fail 0 "boom"] ++ [Ev.add 0 "k2" () 2])).work 0).sends
      = (((WorkManager.initial 1 Unit).run
        [Ev.add 0 "k" () 1, Ev.fail 0 "boom"]).work 0).sends :=
  (c9_failure_halts [Ev.add 0 "k" () 1, Ev.fail 0 "boom"]
    [Ev.add 0 "k2" () 2] 0 (by decide)).2.2.1

/-! ### Range monotonicity (C10) -/

theorem BatchManager.sendPending_range (b : BatchManager V) :
    (b.sendPending).range = b.range := by
  unfold BatchManager.sendPending
  split
  · rfl
  · split <;> rfl

theorem BatchManager.requestSend_range (b : BatchManager V) :
    (b.requestSend).range = b.range := by
  rw [BatchManager.requestSend_eq]
  split
  · exact b.sendPending_range
  · rfl

theorem BatchManager.add_range (b : BatchManager V) (k : String) (v : V) (o : ℤ) :
    (b.add k v o).range = (b.addMutate k v o).range := by
  unfold BatchManager.add
  exact (b.addMutate k v o).requestSend_range

theorem head_tail_mono_step {s : WorkManager n V} (hInv : WorkInv s) (e : Ev n V)
    (hok : okEv s e = true) (i : Fin n) :
    (s.work i).range.head ≤ ((s.step e).work i).range.head
    ∧ (s.work i).range.tail ≤ ((s.step e).work i).range.tail
    ∧ ((s.work i).range.head ≠ ⊥ → ((s.step e).work i).range.head ≠ ⊥) := by
  cases e with
  | add j k v o =>
      by_cases hj : j = i
      · subst hj
        have hmono : (s.work j).range.head ≤ ((o : ℤ) : WithBot ℤ) :=
          of_decide_eq_true hok
        have hwork : (s.step (Ev.add j k v o)).work j = (s.work j).add k v o :=
          Function.update_same _ _ _
        rw [hwork, BatchManager.add_range]
        by_cases hE : (s.work j).range.head = (⊥ : WithBot ℤ)
        · rw [BatchManager.addMutate_of_empty k v o hE]
          refine ⟨hmono, ?_, fun _ => WithBot.coe_ne_bot⟩
          have htb : (s.work j).range.tail = ⊥ := by
            have h1 := (hInv j).2.tail_head
            rw [hE] at h1
            exact le_bot_iff.mp h1
          rw [htb]
          exact bot_le
        · rw [BatchManager.addMutate_of_nonempty k v o hE]
          exact ⟨hmono, le_refl _, fun _ => WithBot.coe_ne_bot⟩
      · have hwork : (s.step (Ev.add j k v o)).work i = s.work i :=
          Function.update_noteq (Ne.symm hj) _ _
        rw [hwork]
        exact ⟨le_refl _, le_refl _, fun h => h⟩
  | complete j =>
      by_cases h0 : (s.work j).outstanding = 0
      · rw [WorkManager.step, WorkManager.completeStep_of_zero s j h0]
        exact ⟨le_refl _, le_refl _, fun h => h⟩
      · by_cases hj : j = i
        · subst hj
          have hout1 : (s.work j).outstanding = 1 :=
            le_antisymm (hInv j).1.out_le (by omega)
          obtain ⟨c, hc⟩ := Option.isSome_iff_exists.mp ((hInv j).1.out_cur hout1)
          have hco : (s.work j).completedOffset = ((c : ℤ) : WithBot ℤ) := by
            unfold BatchManager.completedOffset
            rw [hc]
          have hrange : ((s.step (Ev.complete j)).work j).range
              = { head := (s.work j).range.head, tail := (s.work j).completedOffset } := by
            rw [WorkManager.step]
            cases hokk : ((s.preEmit j).updateOffset).2 with
            | true =>
                rw [WorkManager.completeStep_work_self_ok s j h0 hokk,
                  BatchManager.sendPending_range]
                rfl
            | false =>
                rw [WorkManager.completeStep_work_self_assert s j h0 hokk]
                rfl
          rw [hrange]
          refine ⟨le_refl _, ?_, fun h => h⟩
          show (s.work j).range.tail ≤ (s.work j).completedOffset
          rw [hco]
          exact (hInv j).2.tail_le_cur c hc
        · have hwork : (s.step (Ev.complete j)).work i = s.work i := by
            rw [WorkManager.step]
            exact WorkManager.completeStep_work_other s j h0 i (Ne.symm hj)
          rw [hwork]
          exact ⟨le_refl _, le_refl _, fun h => h⟩
  | fail j e1 =>
      by_cases h0 : (s.work j).outstanding = 0
      · rw [WorkManager.step, WorkManager.failStep_of_zero s j e1 h0]
        exact ⟨le_refl _, le_refl _, fun h => h⟩
      · by_cases hj : j = i
        · subst hj
          rw [WorkManager.step, WorkManager.failStep_work_self s j e1 h0]
          exact ⟨le_refl _, le_refl _, fun h => h⟩
        · rw [WorkManager.step, WorkManager.failStep_work_other s j e1 i (Ne.symm hj)]
          exact ⟨le_refl _, le_refl _, fun h => h⟩
  | closeOne j =>
      by_cases hj : j = i
      · subst hj
        have hwork : (s.step (Ev.closeOne j)).work j = (s.work j).close :=
          Function.update_same _ _ _
        rw [hwork]
        exact ⟨le_refl _, le_refl _, fun h => h⟩
      · have hwork : (s.step (Ev.closeOne j)).work i = s.work i :=
          Function.update_noteq (Ne.symm hj) _ _
        rw [hwork]
        exact ⟨le_refl _, le_refl _, fun h => h⟩
  | closeAll =>
      exact ⟨le_refl _, le_refl _, fun h => h⟩

theorem head_tail_mono_run {s : WorkManager n V} (hInv : WorkInv s)
    (tr : List (Ev n V)) (hg : goodTrace s tr = true) (i : Fin n) :
    (s.work i).range.head ≤ ((s.run tr).work i).range.head
    ∧ (s.work i).range.tail ≤ ((s.run tr).work i).range.tail
    ∧ ((s.work i).range.head ≠ ⊥ → ((s.run tr).work i).range.head ≠ ⊥) := by
  induction tr generalizing s with
  | nil => exact ⟨le_refl _, le_refl _, fun h => h⟩
  | cons e tr ih =>
      rw [goodTrace, Bool.and_eq_true] at hg
      obtain ⟨h1, h2, h3⟩ := head_tail_mono_step hInv e hg.1 i
      obtain ⟨h4, h5, h6⟩ := ih (hInv.stepWI e hg.1) hg.2
      rw [WorkManager.run_cons]
      exact ⟨le_trans h1 h4, le_trans h2 h5, fun h => h6 (h3 h)⟩

/-- C10 (implicit — per-pipeline range monotonicity and permanence).  Under
the log precondition (offsets passed to `add` non-decreasing, `goodTrace`),
for every `BatchManager`: `range.head` and `range.tail` are monotonically
non-decreasing over the execution, `tail ≤ head` whenever the range is
non-empty, and once the range has become non-empty (the first add happened)
it never becomes empty again — completing or clearing batches never resets
it to the `−∞` sentinel. -/
theorem c10_range_monotone {n : ℕ} {V : Type} (tr1 tr2 : List (Ev n V)) (i : Fin n)
    (hgood : goodTrace (WorkManager.initial n V) (tr1 ++ tr2) = true) :
    ((((WorkManager.initial n V).run tr1).work i).range.head
      ≤ (((WorkManager.initial n V).run (tr1 ++ tr2)).work i).range.head)
    ∧ ((((WorkManager.initial n V).run tr1).work i).range.tail
      ≤ (((WorkManager.initial n V).run (tr1 ++ tr2)).work i).range.tail)
    ∧ ((((WorkManager.initial n V).run (tr1 ++ tr2)).work i).range.empty = false →
        (((WorkManager.initial n V).run (tr1 ++ tr2)).work i).range.tail
          ≤ (((WorkManager.initial n V).run (tr1 ++ tr2)).work i).range.head)
    ∧ ((((WorkManager.initial n V).run tr1).work i).range.empty = false →
        (((WorkManager.initial n V).run (tr1 ++ tr2)).work i).range.empty = false) := by
  rw [goodTrace_append, Bool.and_eq_true] at hgood
  obtain ⟨hg1, hg2⟩ := hgood
  have hInv1 : WorkInv ((WorkManager.initial n V).run tr1) :=
    WorkInv.initialWI.runWI tr1 hg1
  have hInv2 : WorkInv ((WorkManager.initial n V).run (tr1 ++ tr2)) := by
    rw [WorkManager.run_append]
    exact hInv1.runWI tr2 hg2
  obtain ⟨h1, h2, h3⟩ := head_tail_mono_run hInv1 tr2 hg2 i
  rw [WorkManager.run_append]
  rw [WorkManager.run_append] at hInv2
  refine ⟨h1, h2, fun _ => (hInv2 i).2.tail_head, ?_⟩
  · intro hne
    rw [Range.empty_false_iff] at hne ⊢
    exact h3 hne

/-- Witness for C10 at a concrete input: after an add at offset 5 and its
completion, the tail has moved from 4 to 5 (monotone). -/
theorem c10_range_monotone_witness :
    (((WorkManager.initial 1 Unit).run [Ev.add 0 "k" () 5]).work 0).range.tail
      ≤ (((WorkManager.initial 1 Unit).run
          ([Ev.add 0 "k" () 5] ++ [Ev.complete 0])).work 0).range.tail :=
  (c10_range_monotone [Ev.add 0 "k" () 5] [Ev.complete 0] 0 (by decide)).2.1

/-! ### At most one send in flight (C5, corrected) -/

theorem OffsetBatch.isEmpty_false_iff (ob : OffsetBatch V) :
    ob.isEmpty = false ↔ ob.offset ≠ none := by
  unfold OffsetBatch.isEmpty
  cases ob.offset <;> simp

/-- C5 counterexample: after a sender rejection, the current batch is
non-empty although no send invocation is outstanding — refuting the claimed
equivalence "current is non-empty iff a send is outstanding" as stated. -/
theorem c5_counterexample :
    ((((WorkManager.initial 1 Unit).run
        [Ev.add 0 "k" () 1, Ev.fail 0 "boom"]).work 0).current.isEmpty = false)
    ∧ ((((WorkManager.initial 1 Unit).run
        [Ev.add 0 "k" () 1, Ev.fail 0 "boom"]).work 0).outstanding = 0) := by
  decide

/-- C5 (amended — at most one send in flight per pipeline).  In every
execution: at most one invocation of a `BatchManager`'s sender is
outstanding; if a send is outstanding then `current` is non-empty; as long
as the pipeline has not failed, `current` is non-empty exactly when a send
is outstanding; and `requestSend` never starts a new send while `current`
is non-empty (it returns the state unchanged). -/
theorem c5_at_most_one_send {n : ℕ} {V : Type} (tr : List (Ev n V)) (i : Fin n) :
    ((((WorkManager.initial n V).run tr).work i).outstanding ≤ 1)
    ∧ ((((WorkManager.initial n V).run tr).work i).outstanding = 1 →
        (((WorkManager.initial n V).run tr).work i).current.isEmpty = false)
    ∧ ((((WorkManager.initial n V).run tr).work i).failed = false →
        ((((WorkManager.initial n V).run tr).work i).current.isEmpty = false ↔
          (((WorkManager.initial n V).run tr).work i).outstanding = 1))
    ∧ (∀ b : BatchManager V, b.current.isEmpty = false → b.requestSend = b) := by
  have hA : AInv (((WorkManager.initial n V).run tr).work i) :=
    WorkAInv.initialWA.runWA tr i
  refine ⟨hA.out_le, ?_, ?_, ?_⟩
  · intro h1
    rw [OffsetBatch.isEmpty_false_iff]
    intro hn
    have := hA.out_cur h1
    rw [hn] at this
    cases this
  · intro hfail
    constructor
    · intro hne
      rw [OffsetBatch.isEmpty_false_iff] at hne
      rcases Nat.lt_or_ge (((WorkManager.initial n V).run tr).work i).outstanding 1 with h1 | h1
      · exfalso
        exact hne (hA.idle_cur hfail (by omega))
      · exact le_antisymm hA.out_le h1
    · intro h1
      rw [OffsetBatch.isEmpty_false_iff]
      intro hn
      have := hA.out_cur h1
      rw [hn] at this
      cases this
  · intro b hne
    rw [BatchManager.requestSend_eq, if_neg]
    rw [OffsetBatch.isEmpty_false_iff] at hne
    exact hne

/-- Witness for C5 at a concrete input: with one send in flight after a
single add, the current batch is non-empty. -/
theorem c5_at_most_one_send_witness :
    (((WorkManager.initial 1 Unit).run [Ev.add 0 "k" () 1]).work 0).current.isEmpty
      = false :=
  (c5_at_most_one_send [Ev.add 0 "k" () 1] 0).2.1 (by decide)

/-! ### Close semantics (C6) -/

theorem BatchManager.add_of_closed {b : BatchManager V} (hcl : b.closed = true)
    (k : String) (v : V) (o : ℤ) : b.add k v o = b.addMutate k v o := by
  unfold BatchManager.add
  rw [BatchManager.requestSend_eq]
  split
  · exact BatchManager.sendPending_of_closed _ hcl
  · rfl

theorem closed_step {s : WorkManager n V} {i : Fin n}
    (hcl : (s.work i).closed = true) (e : Ev n V) :
    ((s.step e).work i).closed = true
    ∧ ((s.step e).work i).sends = (s.work i).sends := by
  cases e with
  | add j k v o =>
      by_cases hj : j = i
      · subst hj
        have hwork : (s.step (Ev.add j k v o)).work j = (s.work j).add k v o :=
          Function.update_same _ _ _
        rw [hwork, BatchManager.add_of_closed hcl k v o]
        exact ⟨hcl, rfl⟩
      · have hwork : (s.step (Ev.add j k v o)).work i = s.work i :=
          Function.update_noteq (Ne.symm hj) _ _
        rw [hwork]
        exact ⟨hcl, rfl⟩
  | complete j =>
      by_cases h0 : (s.work j).outstanding = 0
      · rw [WorkManager.step, WorkManager.completeStep_of_zero s j h0]
        exact ⟨hcl, rfl⟩
      · by_cases hj : j = i
        · subst hj
          have hclL : ((s.work j).completeLocal.clearCurrent).closed = true := hcl
          rw [WorkManager.step]
          cases hokk : ((s.preEmit j).updateOffset).2 with
          | true =>
              rw [WorkManager.completeStep_work_self_ok s j h0 hokk]
              rw [BatchManager.sendPending_of_closed _ hclL]
              exact ⟨hcl, rfl⟩
          | false =>
              rw [WorkManager.completeStep_work_self_assert s j h0 hokk]
              exact ⟨hcl, rfl⟩
        · have hwork : (s.step (Ev.complete j)).work i = s.work i := by
            rw [WorkManager.step]
            exact WorkManager.completeStep_work_other s j h0 i (Ne.symm hj)
          rw [hwork]
          exact ⟨hcl, rfl⟩
  | fail j e1 =>
      by_cases h0 : (s.work j).outstanding = 0
      · rw [WorkManager.step, WorkManager.failStep_of_zero s j e1 h0]
        exact ⟨hcl, rfl⟩
      · by_cases hj : j = i
        · subst hj
          rw [WorkManager.step, WorkManager.failStep_work_self s j e1 h0]
          exact ⟨hcl, rfl⟩
        · rw [WorkManager.step, WorkManager.failStep_work_other s j e1 i (Ne.symm hj)]
          exact ⟨hcl, rfl⟩
  | closeOne j =>
      by_cases hj : j = i
      · subst hj
        have hwork : (s.step (Ev.closeOne j)).work j = (s.work j).close :=
          Function.update_same _ _ _
        rw [hwork]
        exact ⟨rfl, rfl⟩
      · have hwork : (s.step (Ev.closeOne j)).work i = s.work i :=
          Function.update_noteq (Ne.symm hj) _ _
        rw [hwork]
        exact ⟨hcl, rfl⟩
  | closeAll =>
      exact ⟨rfl, rfl⟩

theorem closed_run {s : WorkManager n V} {i : Fin n}
    (hcl : (s.work i).closed = true) (tr : List (Ev n V)) :
    ((s.run tr).work i).closed = true
    ∧ ((s.run tr).work i).sends = (s.work i).sends := by
  induction tr generalizing s with
  | nil => exact ⟨hcl, rfl⟩
  | cons e tr ih =>
      obtain ⟨h1, h2⟩ := closed_step hcl e
      obtain ⟨h3, h4⟩ := ih h1
      rw [WorkManager.run_cons]
      exact ⟨h3, by rw [h4, h2]⟩

/-- C6 (close semantics).  (a) Once a `BatchManager` is closed it stays
closed and its sender is never invoked again (its list of sent batches is
frozen), in any continuation of the execution.  (b) An `add` after close
still performs the state mutation (range head/tail, pending batch and
offset) but initiates no send.  (c) `close` on the `WorkManager` closes
every pipeline.  (d) A send already in flight at close time still
completes: the completion still updates `range.tail` to the current batch's
offset, still emits `workComplete`, leaves no send outstanding and starts
no new one. -/
theorem c6_close_semantics {n : ℕ} {V : Type} (tr1 tr2 : List (Ev n V)) (i : Fin n)
    (hclosed : (((WorkManager.initial n V).run tr1).work i).closed = true) :
    ((((WorkManager.initial n V).run (tr1 ++ tr2)).work i).closed = true)
    ∧ ((((WorkManager.initial n V).run (tr1 ++ tr2)).work i).sends
        = (((WorkManager.initial n V).run tr1).work i).sends)
    ∧ (∀ (b : BatchManager V) (k : String) (v : V) (o : ℤ), b.closed = true →
        b.add k v o = b.addMutate k v o)
    ∧ (∀ (s : WorkManager n V) (j : Fin n), ((s.step Ev.closeAll).work j).closed = true)
    ∧ (∀ (s : WorkManager n V) (j : Fin n) (c : ℤ), AInv (s.work j) →
        (s.work j).closed = true → (s.work j).outstanding ≠ 0 →
        (s.work j).current.offset = some c →
          ((s.completeStep j).work j).range.tail = ((c : ℤ) : WithBot ℤ)
          ∧ ((s.completeStep j).work j).outstanding = 0
          ∧ ((s.completeStep j).work j).sends = (s.work j).sends
          ∧ (s.completeStep j).workCompletes
              = s.workCompletes ++ [((c : ℤ) : WithBot ℤ)]) := by
  have hrun : ((WorkManager.initial n V).run (tr1 ++ tr2))
      = (((WorkManager.initial n V).run tr1)).run tr2 := WorkManager.run_append _ _ _
  obtain ⟨hc1, hc2⟩ := closed_run hclosed tr2
  rw [hrun]
  refine ⟨hc1, hc2, ?_, ?_, ?_⟩
  · intro b k v o hcl
    exact BatchManager.add_of_closed hcl k v o
  · intro s j
    rfl
  · intro s j c hA hcl h0 hc
    have hco : (s.work j).completedOffset = ((c : ℤ) : WithBot ℤ) := by
      unfold BatchManager.completedOffset
      rw [hc]
    have hclL : ((s.work j).completeLocal.clearCurrent).closed = true := hcl
    have hwc : (s.completeStep j).workCompletes
        = s.workCompletes ++ [((c : ℤ) : WithBot ℤ)] := by
      rw [WorkManager.completeStep_workCompletes s j h0, hco]
    cases hokk : ((s.preEmit j).updateOffset).2 with
    | true =>
        rw [WorkManager.completeStep_work_self_ok s j h0 hokk,
          BatchManager.sendPending_of_closed _ hclL]
        refine ⟨?_, ?_, rfl, hwc⟩
        · show (s.work j).completedOffset = ((c : ℤ) : WithBot ℤ)
          exact hco
        · show (s.work j).outstanding - 1 = 0
          have := hA.out_le
          omega
    | false =>
        rw [WorkManager.completeStep_work_self_assert s j h0 hokk]
        refine ⟨?_, ?_, rfl, hwc⟩
        · show (s.work j).completedOffset = ((c : ℤ) : WithBot ℤ)
          exact hco
        · show (s.work j).outstanding - 1 = 0
          have := hA.out_le
          omega

/-- Witness for C6 at a concrete input: a send in flight at close time still
completes — the sent-batch list stays frozen afterwards and the
`offsetChanged` checkpoint at offset 1 still fires after the close. -/
theorem c6_close_semantics_witness :
    ((((WorkManager.initial 1 Unit).run
        ([Ev.add 0 "k" () 1, Ev.closeAll] ++ [Ev.complete 0])).work 0).sends
      = (((WorkManager.initial 1 Unit).run [Ev.add 0 "k" () 1, Ev.closeAll]).work 0).sends)
    ∧ ((WorkManager.initial 1 Unit).run
        ([Ev.add 0 "k" () 1, Ev.closeAll] ++ [Ev.complete 0])).checkpoints
      = [((1 : ℤ) : WithBot ℤ)] :=
  ⟨(c6_close_semantics [Ev.add 0 "k" () 1, Ev.closeAll] [Ev.complete 0] 0
      (by decide)).2.1,
    by decide⟩

/-! ### The ScriptoriumLambda -/

/-- JSON values, for the operation payloads the lambda carries opaquely. -/
inductive Json where
  | null
  | bool (b : Bool)
  | num (n : ℤ)
  | str (s : String)
  | arr (xs : List Json)
  | obj (kvs : List (String × Json))

/-- `JSON.stringify` on payload values (string escaping elided: the lambda
never inspects the produced text). -/
def Json.stringify : Json → String
  | .null => "null"
  | .bool true => "true"
  | .bool false => "false"
  | .num n => toString n
  | .str s => "\"" ++ s ++ "\""
  | .arr xs => "[" ++ String.intercalate "," (xs.attach.map fun x => Json.stringify x.1) ++ "]"
  | .obj kvs => "\x7b" ++ String.intercalate ","
      (kvs.attach.map fun kv => "\"" ++ kv.1.1 ++ "\":" ++ Json.stringify kv.1.2) ++ "\x7d"
decreasing_by
  · have h1 := List.sizeOf_lt_of_mem x.2
    simp only [Json.arr.sizeOf_spec]
    omega
  · have h1 := List.sizeOf_lt_of_mem kv.2
    have h2 : sizeOf kv.1.2 < sizeOf kv.1 := by
      obtain ⟨⟨a, b⟩, hm⟩ := kv
      simp [Prod.mk.sizeOf_spec]
    simp only [Json.obj.sizeOf_spec]
    omega

/-- `IMongoTarget` from the source: the primary-pipeline key. -/
structure IMongoTarget where
  documentId : String
  tenantId : String

/-- Operation metadata, restricted to the field the lambda reads
(`metadata.split`); an absent/falsy `metadata` is `none`. -/
structure OpMetadata where
  split : Bool

/-- The fields of `ISequencedOperation` read or written by the lambda. -/
structure IOperation where
  traces : List Json
  metadata : Option OpMetadata
  contents : Json
  clientId : String
  clientSequenceNumber : ℤ
  sequenceNumber : ℤ

/-- A parsed inbound message (`core.IMessage`, refined to
`core.ISequencedOperationMessage` when the type matches): the fields the
lambda reads.  For a non-sequenced message only `type` is consulted. -/
structure ISequencedOperationMessage where
  type : String
  documentId : String
  tenantId : String
  operation : IOperation

/-- Modelled from the spec: the wire constant `core.SequencedOperationType`
is not under src/ (it lives in `@prague/routerlicious`); the spec classifies
on `type == "SequencedOperation"`. -/
def SequencedOperationType : String := "SequencedOperation"

/-- The inbound envelope `utils.IMessage`: a log offset and a value.  The
raw-bytes/JSON layer is modelled by the result of `utils.safelyParseJSON`:
`none` when the value is not valid JSON. -/
structure IMessageIn where
  offset : ℤ
  value : Option ISequencedOperationMessage

/-- `JSON.stringify({documentId: ..., tenantId: ...})`, the encoded form of
the primary-pipeline key (insertion order of the object literal). -/
def encodeMongoTarget (t : IMongoTarget) : String :=
  "\x7b\"documentId\":\"" ++ t.documentId ++ "\",\"tenantId\":\"" ++ t.tenantId ++ "\"\x7d"

/-- The payload normalization in `handler` for sequenced operations: clear
`traces`; back-compat — if the operation has no `metadata` field, replace
`contents` by its JSON-stringified form. -/
def normalizeOperation (op : IOperation) : IOperation :=
  let op1 := { op with traces := ([] : List Json) }
  if op1.metadata.isNone then { op1 with contents := Json.str op1.contents.stringify }
  else op1

/-- The state of the `ScriptoriumLambda`: a `WorkManager` with two batched
workers — index 0 the mongo (primary) manager whose values are the
sequenced messages, index 1 the idle manager whose `null` values are
modelled as `none` — plus a count of the parse-error log lines.  The host
context contract: `context.checkpoint` calls are `sys.checkpoints` and
`context.error` calls are `hostErrors`. -/
structure ScriptoriumLambda where
  sys : WorkManager 2 (Option ISequencedOperationMessage)
  logs : ℕ

def ScriptoriumLambda.initial : ScriptoriumLambda where
  sys := WorkManager.initial 2 (Option ISequencedOperationMessage)
  logs := 0

/-- `context.error(error, restart)` calls made via `batchError`: every
`WorkManager` error event reaches the host with `restart = true`. -/
def ScriptoriumLambda.hostErrors (l : ScriptoriumLambda) : List (String × Bool) :=
  l.sys.errors.map (fun e => (e, true))

/-- `ScriptoriumLambda.handler`: safely parse the message value (a parse
failure is logged and the message is dropped); a `SequencedOperation` is
normalized and routed to the mongo manager under the
`{tenantId, documentId}` key at the message offset; anything else is routed
to the idle manager under the `null` key (`JSON.stringify(null)`). -/
def ScriptoriumLambda.handler (l : ScriptoriumLambda) (message : IMessageIn) :
    ScriptoriumLambda :=
  match message.value with
  | none => { l with logs := l.logs + 1 }
  | some parsedMessage =>
      if parsedMessage.type = SequencedOperationType then
        let value : ISequencedOperationMessage :=
          { parsedMessage with operation := normalizeOperation parsedMessage.operation }
        { l with sys := l.sys.step (Ev.add 0
            (encodeMongoTarget ⟨value.documentId, value.tenantId⟩) (some value)
            message.offset) }
      else
        { l with sys := l.sys.step (Ev.add 1 "null" none message.offset) }

/-- The lambda-level event alphabet: an inbound message, the completion or
rejection of an outstanding send of either manager, and `close`. -/
inductive LEv where
  | handle (message : IMessageIn)
  | completeMongo
  | completeIdle
  | failMongo (e : String)
  | failIdle (e : String)
  | close

def ScriptoriumLambda.step (l : ScriptoriumLambda) : LEv → ScriptoriumLambda
  | .handle m => l.handler m
  | .completeMongo => { l with sys := l.sys.step (Ev.complete 0) }
  | .completeIdle => { l with sys := l.sys.step (Ev.complete 1) }
  | .failMongo e => { l with sys := l.sys.step (Ev.fail 0 e) }
  | .failIdle e => { l with sys := l.sys.step (Ev.fail 1 e) }
  | .close => { l with sys := l.sys.step Ev.closeAll }

def ScriptoriumLambda.run (l : ScriptoriumLambda) (tr : List LEv) : ScriptoriumLambda :=
  tr.foldl ScriptoriumLambda.step l

/-! ### Storage error handling (`insertOp` / `updateSequenceNumber`) -/

/-- A storage-driver error as inspected by the lambda. -/
structure MongoError where
  name : String
  code : ℤ

/-- `insertOp`: bulk-insert the messages (the outcome of
`opCollection.insertMany` is supplied by the storage environment) and
swallow duplicate-key errors (`name = "MongoError"` and `code = 11000`,
since a replay may insert twice); every other error is a full rejection. -/
def ScriptoriumLambda.insertOp (insertRes : Except MongoError Unit) :
    Except MongoError Unit :=
  match insertRes with
  | .ok _ => .ok ()
  | .error e =>
      if e.name ≠ "MongoError" ∨ e.code ≠ 11000 then .error e
      else .ok ()

/-- `Promise.all` over a list of already-settled outcomes: resolves when
all resolve, otherwise rejects (determinized to the first rejection in
list order). -/
def ScriptoriumLambda.allSettled (rs : List (Except MongoError Unit)) :
    Except MongoError Unit :=
  rs.foldl (fun acc r =>
    match acc with
    | .error e2 => .error e2
    | .ok _ => r) (.ok ())

/-- `updateSequenceNumber`: with no content collection resolve immediately
(back-compat); otherwise, for every message whose `metadata.split` is set,
perform the conditional update (its outcome supplied by the environment per
message), swallowing duplicate-key errors for the same reason as
`insertOp`; the awaited `Promise.all` fails with the first failing update
(rejections determinized in list order). -/
def ScriptoriumLambda.updateSequenceNumber (hasContentCollection : Bool)
    (messages : List ISequencedOperationMessage)
    (updateRes : ISequencedOperationMessage → Except MongoError Unit) :
    Except MongoError Unit :=
  if hasContentCollection = false then .ok ()
  else
    ScriptoriumLambda.allSettled ((messages.filter (fun m =>
        match m.operation.metadata with
        | some md => md.split
        | none => false)).map (fun m =>
      match updateRes m with
      | .ok _ => Except.ok ()
      | .error e =>
          if e.name ≠ "MongoError" ∨ e.code ≠ 11000 then Except.error e
          else Except.ok ()))

/-- `processMongoCore`: await both the bulk insert and the sequence-number
updates; the group completes only when both do, and fails if either fails
(rejections determinized insert-first). -/
def ScriptoriumLambda.processMongoCore (insertRes : Except MongoError Unit)
    (hasContentCollection : Bool) (messages : List ISequencedOperationMessage)
    (updateRes : ISequencedOperationMessage → Except MongoError Unit) :
    Except MongoError Unit :=
  match ScriptoriumLambda.insertOp insertRes with
  | .error e => .error e
  | .ok _ => ScriptoriumLambda.updateSequenceNumber hasContentCollection messages updateRes

/-- C8 (message classification and normalization).  For every inbound
message: a parse failure is logged and routed to no pipeline, leaving the
whole pipeline state unchanged; a parsed `SequencedOperation` is added to
the primary (mongo) manager under the `{documentId, tenantId}` key at the
message offset, with its payload normalized; any other parsed message is
added to the idle manager under the fixed `null` key at the message offset.
Normalization sets `traces` to the empty array and replaces `contents` by
its JSON-stringified form exactly when `metadata` is absent, leaving the
other fields unchanged. -/
theorem c8_handler_classification (l : ScriptoriumLambda) (m : IMessageIn) :
    (m.value = none →
      l.handler m = { l with logs := l.logs + 1 } ∧ (l.handler m).sys = l.sys)
    ∧ (∀ pm, m.value = some pm → pm.type = SequencedOperationType →
        l.handler m = { l with sys := l.sys.step (Ev.add 0
          (encodeMongoTarget ⟨pm.documentId, pm.tenantId⟩)
          (some { pm with operation := normalizeOperation pm.operation }) m.offset) })
    ∧ (∀ pm, m.value = some pm → pm.type ≠ SequencedOperationType →
        l.handler m = { l with sys := l.sys.step (Ev.add 1 "null" none m.offset) })
    ∧ (∀ op : IOperation,
        (normalizeOperation op).traces = []
        ∧ (normalizeOperation op).contents
            = (if op.metadata.isNone then Json.str op.contents.stringify else op.contents)
        ∧ (normalizeOperation op).metadata = op.metadata
        ∧ (normalizeOperation op).clientId = op.clientId
        ∧ (normalizeOperation op).clientSequenceNumber = op.clientSequenceNumber
        ∧ (normalizeOperation op).sequenceNumber = op.sequenceNumber) := by
  refine ⟨?_, ?_, ?_, ?_⟩
  · intro hv
    unfold ScriptoriumLambda.handler
    rw [hv]
    exact ⟨rfl, rfl⟩
  · intro pm hv ht
    unfold ScriptoriumLambda.handler
    rw [hv]
    simp only [ht, if_pos]
  · intro pm hv ht
    unfold ScriptoriumLambda.handler
    rw [hv]
    simp only [if_neg ht]
  · intro op
    cases hm : op.metadata with
    | none => simp [normalizeOperation, hm]
    | some md => simp [normalizeOperation, hm]

/-- Witness for C8 at a concrete input: a sequenced message with no
metadata is routed to the mongo manager with cleared traces and stringified
contents. -/
theorem c8_handler_classification_witness :
    ScriptoriumLambda.initial.handler
        { offset := 10
          value := some
            { type := SequencedOperationType, documentId := "D", tenantId := "T"
              operation :=
                { traces := [Json.null], metadata := none, contents := Json.num 5
                  clientId := "c", clientSequenceNumber := 1, sequenceNumber := 5 } } }
      = { ScriptoriumLambda.initial with
          sys := ScriptoriumLambda.initial.sys.step (Ev.add 0
            (encodeMongoTarget ⟨"D", "T"⟩)
            (some
              { type := SequencedOperationType, documentId := "D", tenantId := "T"
                operation :=
                  { traces := [], metadata := none
                    contents := Json.str (Json.num 5).stringify
                    clientId := "c", clientSequenceNumber := 1, sequenceNumber := 5 } })
            10) } := by
  have h := (c8_handler_classification ScriptoriumLambda.initial
    { offset := 10
      value := some
        { type := SequencedOperationType, documentId := "D", tenantId := "T"
          operation :=
            { traces := [Json.null], metadata := none, contents := Json.num 5
              clientId := "c", clientSequenceNumber := 1, sequenceNumber := 5 } } }).2.1
    _ rfl rfl
  rw [h]
  rfl

theorem allSettled_all_ok (rs : List (Except MongoError Unit))
    (h : ∀ r ∈ rs, r = .ok ()) :
    ScriptoriumLambda.allSettled rs = .ok () := by
  induction rs with
  | nil => rfl
  | cons r rs ih =>
      have hr := h r (List.mem_cons_self r rs)
      subst hr
      exact ih (fun x hx => h x (List.mem_cons_of_mem _ hx))

theorem allSettled_from_error (rs : List (Except MongoError Unit)) (e : MongoError) :
    rs.foldl (fun acc r =>
      match acc with
      | .error e2 => .error e2
      | .ok _ => r) (Except.error e) = Except.error e := by
  induction rs with
  | nil => rfl
  | cons r rs ih => exact ih

theorem allSettled_has_error (rs : List (Except MongoError Unit)) (e : MongoError)
    (h : Except.error e ∈ rs) :
    ∃ e2, ScriptoriumLambda.allSettled rs = Except.error e2 := by
  induction rs with
  | nil => cases h
  | cons r rs ih =>
      cases r with
      | error e1 => exact ⟨e1, allSettled_from_error rs e1⟩
      | ok u =>
          rcases List.mem_cons.mp h with h1 | h1
          · exact Except.noConfusion h1
          · exact ih h1

/-- C7 (duplicate-key swallowing).  A duplicate-key storage error (`name =
"MongoError"`, `code = 11000`) from the bulk insert is absorbed and
`insertOp` resolves; duplicate-key errors from the conditional updates are
likewise absorbed and `updateSequenceNumber` resolves; any other error from
the bulk insert rejects `insertOp` and hence the whole group
(`processMongoCore`); any other error from a conditional update (on a
message whose `metadata.split` is set) rejects `updateSequenceNumber` and
hence the whole group even when the insert succeeded; and a pipeline
failure reaches the host as `context.error(err, restart = true)`. -/
theorem c7_duplicate_key_swallowing
    (e : MongoError) (hcc : Bool) (msgs : List ISequencedOperationMessage)
    (upd : ISequencedOperationMessage → Except MongoError Unit) :
    (e.name = "MongoError" → e.code = 11000 →
      ScriptoriumLambda.insertOp (.error e) = .ok ())
    ∧ ((∀ m ∈ msgs, upd m = .ok () ∨ ∃ e2, upd m = .error e2
          ∧ e2.name = "MongoError" ∧ e2.code = 11000) →
        ScriptoriumLambda.updateSequenceNumber hcc msgs upd = .ok ())
    ∧ ((e.name ≠ "MongoError" ∨ e.code ≠ 11000) →
        ScriptoriumLambda.insertOp (.error e) = .error e
        ∧ ScriptoriumLambda.processMongoCore (.error e) hcc msgs upd = .error e)
    ∧ (∀ l : ScriptoriumLambda, (l.sys.work 0).outstanding ≠ 0 → ∀ err,
        (l.step (.failMongo err)).hostErrors = l.hostErrors ++ [(err, true)])
    ∧ (∀ m ∈ msgs, ∀ md, m.operation.metadata = some md → md.split = true →
        upd m = .error e → (e.name ≠ "MongoError" ∨ e.code ≠ 11000) →
          ∃ e3, ScriptoriumLambda.updateSequenceNumber true msgs upd = .error e3
            ∧ ScriptoriumLambda.processMongoCore (.ok ()) true msgs upd
                = .error e3) := by
  refine ⟨?_, ?_, ?_, ?_, ?_⟩
  · intro h1 h2
    show (if e.name ≠ "MongoError" ∨ e.code ≠ 11000 then Except.error e
        else Except.ok ()) = Except.ok ()
    rw [if_neg]
    push_neg
    exact ⟨h1, h2⟩
  · intro hall
    cases hcc with
    | false => rfl
    | true =>
        show ScriptoriumLambda.allSettled _ = Except.ok ()
        apply allSettled_all_ok
        intro r hr
        rw [List.mem_map] at hr
        obtain ⟨msg, hmem, hmsg⟩ := hr
        have hmem2 : msg ∈ msgs := (List.mem_filter.mp hmem).1
        rcases hall msg hmem2 with hok | ⟨e2, herr, hn, hc⟩
        · rw [← hmsg, hok]
        · rw [← hmsg, herr]
          show (if e2.name ≠ "MongoError" ∨ e2.code ≠ 11000 then Except.error e2
              else Except.ok ()) = Except.ok ()
          rw [if_neg]
          push_neg
          exact ⟨hn, hc⟩
  · intro hnd
    have h1 : ScriptoriumLambda.insertOp (.error e) = .error e := by
      show (if e.name ≠ "MongoError" ∨ e.code ≠ 11000 then Except.error e
          else Except.ok ()) = Except.error e
      rw [if_pos hnd]
    refine ⟨h1, ?_⟩
    unfold ScriptoriumLambda.processMongoCore
    rw [h1]
  · intro l h0 err
    show ((l.sys.step (Ev.fail 0 err)).errors.map (fun e2 => (e2, true)))
      = (l.sys.errors.map (fun e2 => (e2, true))) ++ [(err, true)]
    rw [WorkManager.step, WorkManager.failStep_of_out l.sys 0 err h0]
    rw [List.map_append]
    rfl
  · intro m hm md hmd hsplit hupd hnd
    have hpred : (match m.operation.metadata with
        | some md2 => md2.split
        | none => false) = true := by
      rw [hmd]
      exact hsplit
    have hmemres : Except.error e ∈ (msgs.filter (fun m2 =>
        match m2.operation.metadata with
        | some md2 => md2.split
        | none => false)).map (fun m2 =>
        match upd m2 with
        | .ok _ => Except.ok ()
        | .error e4 =>
            if e4.name ≠ "MongoError" ∨ e4.code ≠ 11000 then Except.error e4
            else Except.ok ()) := by
      rw [List.mem_map]
      refine ⟨m, List.mem_filter.mpr ⟨hm, hpred⟩, ?_⟩
      have hval : (match upd m with
          | Except.ok _ => Except.ok ()
          | Except.error e4 =>
              if e4.name ≠ "MongoError" ∨ e4.code ≠ 11000 then Except.error e4
              else Except.ok ()) = Except.error e := by
        rw [hupd]
        show (if e.name ≠ "MongoError" ∨ e.code ≠ 11000 then Except.error e
            else Except.ok ()) = Except.error e
        rw [if_pos hnd]
      exact hval
    obtain ⟨e3, he3⟩ := allSettled_has_error _ e hmemres
    exact ⟨e3, he3, he3⟩

/-- Witness for C7 at concrete inputs: a duplicate-key error from the bulk
insert is absorbed, and a non-duplicate-key error from the conditional
update of a split message rejects `updateSequenceNumber` and
`processMongoCore` even though the insert succeeded. -/
theorem c7_duplicate_key_swallowing_witness :
    ScriptoriumLambda.insertOp (.error ⟨"MongoError", 11000⟩) = .ok ()
    ∧ ∃ e3,
        ScriptoriumLambda.updateSequenceNumber true
          [⟨"SequencedOperation", "D", "T", ⟨[], some ⟨true⟩, Json.null, "c", 1, 1⟩⟩]
          (fun _ => .error ⟨"WriteConflict", 112⟩) = .error e3
        ∧ ScriptoriumLambda.processMongoCore (.ok ()) true
          [⟨"SequencedOperation", "D", "T", ⟨[], some ⟨true⟩, Json.null, "c", 1, 1⟩⟩]
          (fun _ => .error ⟨"WriteConflict", 112⟩) = .error e3 := by
  constructor
  · exact (c7_duplicate_key_swallowing ⟨"MongoError", 11000⟩ false []
      (fun _ => .ok ())).1 rfl rfl
  · exact (c7_duplicate_key_swallowing ⟨"WriteConflict", 112⟩ true
      [⟨"SequencedOperation", "D", "T", ⟨[], some ⟨true⟩, Json.null, "c", 1, 1⟩⟩]
      (fun _ => .error ⟨"WriteConflict", 112⟩)).2.2.2.2
      ⟨"SequencedOperation", "D", "T", ⟨[], some ⟨true⟩, Json.null, "c", 1, 1⟩⟩
      (List.mem_cons_self _ _) ⟨true⟩ rfl rfl rfl (Or.inr (by decide))

/-! ### End-to-end scenarios -/

/-- A sequenced operation message for `(T, D)` at offset `o`; payload
fields carry the offset so messages are distinguishable. -/
def seqMessage (o : ℤ) : IMessageIn where
  offset := o
  value := some
    { type := SequencedOperationType
      documentId := "D"
      tenantId := "T"
      operation :=
        { traces := []
          metadata := some { split := false }
          contents := Json.null
          clientId := "c"
          clientSequenceNumber := o
          sequenceNumber := o } }

/-- A non-sequenced (heartbeat) message at offset `o`. -/
def heartbeatMessage (o : ℤ) : IMessageIn where
  offset := o
  value := some
    { type := "heartbeat"
      documentId := ""
      tenantId := ""
      operation :=
        { traces := []
          metadata := none
          contents := Json.null
          clientId := ""
          clientSequenceNumber := 0
          sequenceNumber := 0 } }

/-- Scenario B: offsets 1..100, all sequenced ops for `(T, D)`, delivered
before the first send completes; then the two sends complete. -/
def scenarioBTrace : List LEv :=
  ((List.range 100).map (fun k => LEv.handle (seqMessage ((k : ℤ) + 1))))
    ++ [LEv.completeMongo, LEv.completeMongo]

def scenarioBRun : ScriptoriumLambda :=
  ScriptoriumLambda.initial.run scenarioBTrace

/-- C4 (burst coalescing, Scenario B).  With offsets 1..100, all sequenced
operations for one `(tenantId, documentId)` key, delivered before the first
send completes, the primary sender is invoked exactly twice: first with a
batch whose single group holds only the message at offset 1, then with a
batch whose single group holds the messages at offsets 2..100 in order
(messages identified by their sequence numbers, which equal their offsets
in this scenario); after both sends complete, `host.checkpoint(100)` is
called (the calls are checkpoint(1) then checkpoint(100)). -/
theorem c4_burst_coalescing :
    ((scenarioBRun.sys.work 0).sends.map (fun b => b.map (fun kv =>
        (kv.1, kv.2.map (fun v => Option.map
          (fun msg => msg.operation.sequenceNumber) v)))))
      = [[(encodeMongoTarget ⟨"D", "T"⟩, [some 1])],
         [(encodeMongoTarget ⟨"D", "T"⟩,
            (List.range 99).map (fun j => some ((j : ℤ) + 2)))]]
    ∧ scenarioBRun.sys.checkpoints
        = [((1 : ℤ) : WithBot ℤ), ((100 : ℤ) : WithBot ℤ)] := by
  constructor
  · decide
  · decide

theorem WorkManager.failStep_lastOffset (s : WorkManager n V) (i : Fin n) (e : String) :
    (s.failStep i e).lastOffset = s.lastOffset := by
  by_cases h0 : (s.work i).outstanding = 0
  · rw [WorkManager.failStep_of_zero s i e h0]
  · rw [WorkManager.failStep_of_out s i e h0]

theorem WorkManager.closeAll_lastOffset (s : WorkManager n V) :
    (s.step Ev.closeAll).lastOffset = s.lastOffset := rfl

/-- Scenario C, before the first sequenced send completes: sequenced ops at
offsets 1 and 3, heartbeats at 2 and 4; the heartbeat sends complete
instantly, the sequenced sends are still outstanding. -/
def scenarioCPrefixTrace : List LEv :=
  [LEv.handle (seqMessage 1), LEv.handle (heartbeatMessage 2), LEv.completeIdle,
   LEv.handle (seqMessage 3), LEv.handle (heartbeatMessage 4), LEv.completeIdle]

/-- Scenario C in full: afterwards the two sequenced sends complete. -/
def scenarioCTrace : List LEv :=
  scenarioCPrefixTrace ++ [LEv.completeMongo, LEv.completeMongo]

def scenarioCRun : ScriptoriumLambda :=
  ScriptoriumLambda.initial.run scenarioCTrace

/-- C3 counterexample.  In Scenario C, after every send has completed (no
send outstanding, no pipeline failed), the final checkpoint and
`lastOffset` are 3, not 4: `4` is never passed to `host.checkpoint`, and
`lastOffset` differs from the maximum `range.head` across pipelines
(which is 4). -/
theorem c3_counterexample :
    scenarioCRun.sys.lastOffset = ((3 : ℤ) : WithBot ℤ)
    ∧ scenarioCRun.sys.checkpoints.getLast? = some ((3 : ℤ) : WithBot ℤ)
    ∧ ((4 : ℤ) : WithBot ℤ) ∉ scenarioCRun.sys.checkpoints
    ∧ wmax (scenarioCRun.sys.work 0).range.head ((scenarioCRun.sys.work 1).range.head)
        = ((4 : ℤ) : WithBot ℤ)
    ∧ (scenarioCRun.sys.work 0).outstanding = 0
    ∧ (scenarioCRun.sys.work 1).outstanding = 0
    ∧ (scenarioCRun.sys.work 0).failed = false
    ∧ (scenarioCRun.sys.work 1).failed = false := by
  decide

/-- C3 (amended — mixed-traffic checkpointing, Scenario C).  With inbound
messages (1, sequenced), (2, heartbeat), (3, sequenced), (4, heartbeat),
slow sequenced sends and instantly completing heartbeat sends: no
checkpoint exceeds 1 until the first sequenced send completes (the host
sees checkpoint(0)); after every send has completed the checkpoint calls
are 0, 1, 3 — the final checkpoint is 3, the union tail (the minimum of
the per-pipeline last completed offsets), not the maximum `range.head`
(which is 4) — and once quiescent (only completions, failures or close may
occur) `lastOffset` stays at 3. -/
theorem c3_mixed_traffic :
    (∀ o ∈ (ScriptoriumLambda.initial.run scenarioCPrefixTrace).sys.checkpoints,
        o ≤ ((1 : ℤ) : WithBot ℤ))
    ∧ scenarioCRun.sys.checkpoints
        = [((0 : ℤ) : WithBot ℤ), ((1 : ℤ) : WithBot ℤ), ((3 : ℤ) : WithBot ℤ)]
    ∧ scenarioCRun.sys.lastOffset = ((3 : ℤ) : WithBot ℤ)
    ∧ wmax (scenarioCRun.sys.work 0).range.head ((scenarioCRun.sys.work 1).range.head)
        = ((4 : ℤ) : WithBot ℤ)
    ∧ (∀ e : LEv, (∀ m, e ≠ LEv.handle m) →
        (scenarioCRun.step e).sys.lastOffset = scenarioCRun.sys.lastOffset) := by
  refine ⟨by decide, by decide, by decide, by decide, ?_⟩
  intro e he
  cases e with
  | handle m => exact absurd rfl (he m)
  | completeMongo =>
      show (scenarioCRun.sys.step (Ev.complete 0)).lastOffset = _
      rw [WorkManager.step, WorkManager.completeStep_of_zero _ _ (by decide)]
  | completeIdle =>
      show (scenarioCRun.sys.step (Ev.complete 1)).lastOffset = _
      rw [WorkManager.step, WorkManager.completeStep_of_zero _ _ (by decide)]
  | failMongo e1 =>
      show (scenarioCRun.sys.step (Ev.fail 0 e1)).lastOffset = _
      rw [WorkManager.step, WorkManager.failStep_lastOffset]
  | failIdle e1 =>
      show (scenarioCRun.sys.step (Ev.fail 1 e1)).lastOffset = _
      rw [WorkManager.step, WorkManager.failStep_lastOffset]
  | close =>
      show (scenarioCRun.sys.step Ev.closeAll).lastOffset = scenarioCRun.sys.lastOffset
      exact WorkManager.closeAll_lastOffset scenarioCRun.sys

/-- Witness for the amended C3 at a concrete input: a `close` event at
quiescence leaves `lastOffset` unchanged. -/
theorem c3_mixed_traffic_witness :
    (scenarioCRun.step LEv.close).sys.lastOffset = scenarioCRun.sys.lastOffset :=
  c3_mixed_traffic.2.2.2.2 LEv.close (fun _ h => LEv.noConfusion h)

end Scriptorium
